import Mathlib

/-!
# Verification of the Cloudflare provisioning reconciler

Shallow embedding of the core of `NodeArt/cloudflare-provisioning`:
the per-kind collection reconcilers of the `CloudFlare` client class
(DNS records, firewall rules, redirect rules, page rules, worker routes),
the filter-payload normalization of ruleset rules, the redirect-ruleset
lazy initialization, the credential-header construction, the per-key
setting dispatcher, and the textual template instantiation
(`substituteDomainName`).

Asynchronous provider calls are modelled by an effect value `Eff ε α`
recording, in order, the provider calls the code issues (`trace`) and
whether the computation returns normally or propagates a thrown error
(`result`).  The outcome of each individual provider call (success, or a
thrown non-200 error) is an input of the model: a function `fails` from
calls to `Bool`.  Fetch operations (`getDNSRecords`, `getPageRules`, ...)
are modelled by passing their parsed result in as the current remote
collection.
-/

/-- A computation that issues provider calls of type `ε` in order and either
returns a value or propagates a thrown error (`Except.error`). -/
structure Eff (ε : Type) (α : Type) where
  trace : List ε
  result : Except String α
deriving Repr

/-- Return without issuing a call (plain value position in the JS code). -/
def Eff.pur {ε α : Type} (a : α) : Eff ε α :=
  ⟨[], Except.ok a⟩

/-- Sequencing of two awaited steps: if the first throws, the second never
runs (its calls are not issued). -/
def Eff.bind {ε α β : Type} (m : Eff ε α) (f : α → Eff ε β) : Eff ε β :=
  match m.result with
  | Except.error e => ⟨m.trace, Except.error e⟩
  | Except.ok a => ⟨m.trace ++ (f a).trace, (f a).result⟩

/-- One awaited provider call: the call is issued (appears on the trace) and
then either succeeds or throws, according to the outcome assignment. -/
def Eff.attempt {ε : Type} (fails : ε → Bool) (e : ε) : Eff ε Unit :=
  ⟨[e], if fails e then Except.error "request failed" else Except.ok ()⟩

/-- A thrown error (`throw new Error(...)`). -/
def Eff.fail {ε α : Type} (msg : String) : Eff ε α :=
  ⟨[], Except.error msg⟩

/-- `try { m } catch (error) { console.error(...) }`: whatever `m` did is
done, the error (if any) is swallowed and the computation continues. -/
def Eff.tryCatch {ε : Type} (m : Eff ε Unit) : Eff ε Unit :=
  ⟨m.trace, Except.ok ()⟩

/-! ## DNS record reconciliation (`rewriteDNSRecords`, cloudflare.js 133-151)

A desired DNS record carries its `name` (the natural key the loop reads)
and the rest of its JSON payload, which the loop forwards opaquely. -/

/-- A desired DNS record: `name` is read by the matching predicate, `rest`
stands for the remaining payload fields, forwarded unchanged. -/
structure DNSRecord where
  name : String
  rest : String
deriving DecidableEq, Repr

/-- A record of the current remote collection (`getDNSRecords().result`):
the loop reads its `name` and `id`. -/
structure CurrentDNSRecord where
  id : String
  name : String
deriving DecidableEq, Repr

/-- The two mutating DNS calls the loop can issue. -/
inductive DNSCall where
  | update (id : String) (payload : DNSRecord)
  | create (payload : DNSRecord)
deriving DecidableEq, Repr

/-- The call chosen for one desired record: `currentDNSRecords.result.find`
on name equality picks the first matching current record; found means
update keyed by its id, otherwise create. -/
def dnsCallFor (current : List CurrentDNSRecord) (d : DNSRecord) : DNSCall :=
  match current.find? (fun record => record.name == d.name) with
  | some currentDNSRecord => DNSCall.update currentDNSRecord.id d
  | none => DNSCall.create d

/-- The `for (const dnsRecord of dnsRecords)` loop of `rewriteDNSRecords`:
each iteration issues the chosen call inside `try { ... } catch`. The
current collection is the parsed result of the initial `getDNSRecords`. -/
def rewriteDNSRecords (fails : DNSCall → Bool) (current : List CurrentDNSRecord) :
    List DNSRecord → Eff DNSCall Unit
  | [] => Eff.pur ()
  | d :: ds =>
      Eff.bind (Eff.tryCatch (Eff.attempt fails (dnsCallFor current d)))
        (fun _ => rewriteDNSRecords fails current ds)

/-! ## Firewall rule reconciliation (`rewriteFirewallRules`, cloudflare.js 285-308)

`getFirewallRules` returns `{ id, rules }` where `rules` may be absent
(the source forwards it without a default and the loop guards with
`currentFirewallRules?.find`). A desired firewall rule carries its
`description` (the natural key) and the rest of the payload opaquely. -/

/-- A desired firewall rule: matching reads only `description`; the rest of
the payload is forwarded unchanged. -/
structure FirewallRule where
  description : String
  rest : String
deriving DecidableEq, Repr

/-- A rule of the current remote ruleset: the loop reads `description` and
`id`. -/
structure CurrentRule where
  id : String
  description : String
deriving DecidableEq, Repr

/-- Mutating calls of the firewall reconciliation. -/
inductive FWCall where
  | update (rulesetId : String) (ruleId : String) (payload : FirewallRule)
  | create (rulesetId : String) (payload : FirewallRule)
deriving DecidableEq, Repr

/-- The call chosen for one desired firewall rule:
`currentFirewallRules?.find(rule => rule.description === firewallRule.description)`,
then update keyed by the found rule's id, otherwise create. -/
def fwCallFor (rulesetId : String) (currentRules : Option (List CurrentRule))
    (fr : FirewallRule) : FWCall :=
  match (currentRules.getD []).find? (fun rule => rule.description == fr.description) with
  | some currentFirewallRule => FWCall.update rulesetId currentFirewallRule.id fr
  | none => FWCall.create rulesetId fr

/-- The `for (const firewallRule of firewallRules)` loop of
`rewriteFirewallRules` (each call wrapped in `try/catch`), given the
ruleset id and current rule list produced by `getFirewallRules`. -/
def rewriteFirewallRulesLoop (fails : FWCall → Bool) (rulesetId : String)
    (currentRules : Option (List CurrentRule)) :
    List FirewallRule → Eff FWCall Unit
  | [] => Eff.pur ()
  | fr :: frs =>
      Eff.bind (Eff.tryCatch (Eff.attempt fails (fwCallFor rulesetId currentRules fr)))
        (fun _ => rewriteFirewallRulesLoop fails rulesetId currentRules frs)

/-! ## Redirect rule reconciliation (`rewriteRedirectRules`, cloudflare.js 426-449)

Structurally identical to the firewall loop; `getRedirectRules` always
returns a (possibly empty) rule list (`rules ?? []`). A desired redirect
rule is also matched by `description` only. -/

/-- A desired redirect rule: matching reads only `description`. -/
structure RedirectRule where
  description : String
  rest : String
deriving DecidableEq, Repr

/-- Mutating calls of the redirect reconciliation, including the lazy
creation of the `http_request_dynamic_redirect` ruleset container
(`POST zones/:id/rulesets`, payload carried verbatim). -/
inductive RedirCall where
  | update (rulesetId : String) (ruleId : String) (payload : RedirectRule)
  | create (rulesetId : String) (payload : RedirectRule)
  | createRuleset (name : String) (kind : String) (phase : String)
      (rules : List RedirectRule)
deriving DecidableEq, Repr

/-- The call chosen for one desired redirect rule. -/
def redirCallFor (rulesetId : String) (currentRules : List CurrentRule)
    (rr : RedirectRule) : RedirCall :=
  match currentRules.find? (fun rule => rule.description == rr.description) with
  | some currentRedirectRule => RedirCall.update rulesetId currentRedirectRule.id rr
  | none => RedirCall.create rulesetId rr

/-- The `for (const redirectRule of redirectRules)` loop of
`rewriteRedirectRules` (each call wrapped in `try/catch`). -/
def rewriteRedirectRulesLoop (fails : RedirCall → Bool) (rulesetId : String)
    (currentRules : List CurrentRule) :
    List RedirectRule → Eff RedirCall Unit
  | [] => Eff.pur ()
  | rr :: rrs =>
      Eff.bind (Eff.tryCatch (Eff.attempt fails (redirCallFor rulesetId currentRules rr)))
        (fun _ => rewriteRedirectRulesLoop fails rulesetId currentRules rrs)

/-! ## Page rule reconciliation (`rewritePageRules`, cloudflare.js 681-707)

A page-rule target is a `target` string plus an optional `constraint`
object with `operator` and `value`; the matcher compares the triple
`target / constraint?.operator / constraint?.value`. -/

/-- A page-rule target constraint (`{ operator, value }`). -/
structure PRConstraint where
  operator : String
  value : String
deriving DecidableEq, Repr

/-- A page-rule target; `constraint` is optional, read via `?.`. -/
structure PRTarget where
  target : String
  constraint : Option PRConstraint
deriving DecidableEq, Repr

/-- A desired page rule: the matcher reads `targets`; the rest of the
payload (actions, status) is forwarded opaquely. -/
structure PageRule where
  targets : List PRTarget
  rest : String
deriving DecidableEq, Repr

/-- A current remote page rule: the loop reads `targets` and `id`. -/
structure CurrentPageRule where
  id : String
  targets : List PRTarget
deriving DecidableEq, Repr

/-- Mutating calls of the page rule reconciliation. -/
inductive PageCall where
  | update (id : String) (payload : PageRule)
  | create (payload : PageRule)
deriving DecidableEq, Repr

/-- The inner triple comparison
`currentPageRuleTarget.target === pageRuleTarget.target &&
 currentPageRuleTarget.constraint?.operator === pageRuleTarget.constraint?.operator &&
 currentPageRuleTarget.constraint?.value === pageRuleTarget.constraint?.value`. -/
def targetTripleEq (currentTarget desiredTarget : PRTarget) : Bool :=
  currentTarget.target == desiredTarget.target &&
    currentTarget.constraint.map PRConstraint.operator
      == desiredTarget.constraint.map PRConstraint.operator &&
    currentTarget.constraint.map PRConstraint.value
      == desiredTarget.constraint.map PRConstraint.value

/-- The candidate predicate of `currentPageRules.result.find`: the loop
`for (const currentPageRuleTarget of currentPageRule.targets)` returns
`false` as soon as a target of the CURRENT rule has no triple-equal
counterpart among the DESIRED rule's targets, and `true` otherwise. -/
def pageRuleMatches (pageRule : PageRule) (currentPageRule : CurrentPageRule) : Bool :=
  currentPageRule.targets.all
    (fun currentTarget =>
      (pageRule.targets.find? (fun desiredTarget =>
        targetTripleEq currentTarget desiredTarget)).isSome)

/-- The call chosen for one desired page rule: first current rule accepted
by `pageRuleMatches` is updated, otherwise a create is issued. -/
def pageCallFor (current : List CurrentPageRule) (pageRule : PageRule) : PageCall :=
  match current.find? (fun currentPageRule => pageRuleMatches pageRule currentPageRule) with
  | some currentPageRule => PageCall.update currentPageRule.id pageRule
  | none => PageCall.create pageRule

/-- The `for (const pageRule of pageRules)` loop of `rewritePageRules`
(each call wrapped in `try/catch`). -/
def rewritePageRules (fails : PageCall → Bool) (current : List CurrentPageRule) :
    List PageRule → Eff PageCall Unit
  | [] => Eff.pur ()
  | p :: ps =>
      Eff.bind (Eff.tryCatch (Eff.attempt fails (pageCallFor current p)))
        (fun _ => rewritePageRules fails current ps)

/-! ## Worker route replace-all (`rewriteWorkerRoutes`, cloudflare.js 729-825)

Worker routes are not matched: `rewriteWorkerRoutes` deletes every current
route id, then creates every desired route, each batch issued with
`Promise.allSettled` (every operation runs to completion or failure
independently; rejections are logged, the batch itself never throws). -/

/-- A desired worker route (template shape: `pattern` plus an optional
`script`, `null` for the API-disabling route). -/
structure WorkerRoute where
  pattern : String
  script : Option String
deriving DecidableEq, Repr

/-- A current remote worker route: `rewriteWorkerRoutes` reads only `id`. -/
structure CurrentWorkerRoute where
  id : String
  pattern : String
deriving DecidableEq, Repr

/-- Mutating calls of the worker route rewrite. -/
inductive WorkerCall where
  | deleteRoute (routeId : String)
  | createRoute (payload : WorkerRoute)
deriving DecidableEq, Repr

/-- `Promise.allSettled(ms)`: every operation is issued and runs to
completion or failure independently; the aggregate never rejects and
returns the per-operation results. -/
def Eff.allSettled {ε α : Type} (ms : List (Eff ε α)) :
    Eff ε (List (Except String α)) :=
  ⟨(ms.map Eff.trace).flatten, Except.ok (ms.map Eff.result)⟩

/-- `deleteWorkerRoute`: one DELETE call, throwing on a non-200 status. -/
def deleteWorkerRoute (fails : WorkerCall → Bool) (routeId : String) :
    Eff WorkerCall Unit :=
  Eff.attempt fails (WorkerCall.deleteRoute routeId)

/-- `createWorkerRoute`: one POST call, throwing on a non-200 status. -/
def createWorkerRoute (fails : WorkerCall → Bool) (workerRoute : WorkerRoute) :
    Eff WorkerCall Unit :=
  Eff.attempt fails (WorkerCall.createRoute workerRoute)

/-- `deleteWorkerRoutes`: `Promise.allSettled` over all ids, then a loop
that logs each rejected result; returns normally. -/
def deleteWorkerRoutes (fails : WorkerCall → Bool) (routeIds : List String) :
    Eff WorkerCall Unit :=
  Eff.bind (Eff.allSettled (routeIds.map (deleteWorkerRoute fails)))
    (fun _results => Eff.pur ())

/-- `createWorkerRoutes`: `Promise.allSettled` over all desired routes, then
a loop that logs each rejected result; returns normally. -/
def createWorkerRoutes (fails : WorkerCall → Bool) (workerRoutes : List WorkerRoute) :
    Eff WorkerCall Unit :=
  Eff.bind (Eff.allSettled (workerRoutes.map (createWorkerRoute fails)))
    (fun _results => Eff.pur ())

/-- `rewriteWorkerRoutes`: collect the current route ids, delete them all
(batch skipped when there are none), then create every desired route. The
current collection is the parsed result of `getWorkerRoutes`. -/
def rewriteWorkerRoutes (fails : WorkerCall → Bool)
    (current : List CurrentWorkerRoute) (workerRoutes : List WorkerRoute) :
    Eff WorkerCall Unit :=
  let currentWorkerRoutesIds := current.map (fun route => route.id)
  Eff.bind
    (if currentWorkerRoutesIds.length > 0 then
      deleteWorkerRoutes fails currentWorkerRoutesIds
    else Eff.pur ())
    (fun _ => createWorkerRoutes fails workerRoutes)

/-! ## Ruleset fetch and redirect-ruleset lazy creation
(`getFirewallRules` cloudflare.js 195-223, `getRedirectRules` 310-372)

Both functions parse the entrypoint GET response into
`{ id, rules } = response?.result ?? {}` and throw when the id is missing
or falsy. Only `getRedirectRules` special-cases a 404 status: it POSTs an
empty `http_request_dynamic_redirect` ruleset and proceeds with the
freshly created (empty) ruleset. -/

/-- The parsed `result` member of a ruleset entrypoint response: both
fields may be absent. -/
structure RulesetBody where
  id : Option String
  rules : Option (List CurrentRule)
deriving DecidableEq, Repr

/-- A provider response to a ruleset fetch or creation request: a status
code and an optional parsed `result`. -/
structure RulesetResponse where
  statusCode : Nat
  result : Option RulesetBody
deriving DecidableEq, Repr

/-- The payload of the lazy ruleset creation POST issued by
`getRedirectRules` on a 404: an empty zone ruleset for the
`http_request_dynamic_redirect` phase. -/
def redirectRulesetPayload : RedirCall :=
  RedirCall.createRuleset "Redirect rules ruleset" "zone"
    "http_request_dynamic_redirect" []

/-- `getFirewallRules`: non-200 throws; then
`const { id, rules } = response?.result ?? {}` and `if (!id) throw`;
`rules` is returned without a default. No mutating call is issued. -/
def getFirewallRules (resp : RulesetResponse) :
    Except String (String × Option (List CurrentRule)) :=
  if resp.statusCode == 200 then
    let body := resp.result.getD { id := none, rules := none }
    match body.id with
    | some i =>
        if i == "" then Except.error "Could not get firewall rules ruleset ID"
        else Except.ok (i, body.rules)
    | none => Except.error "Could not get firewall rules ruleset ID"
  else Except.error "Could not get firewall rules"

/-- `getRedirectRules`: a 404 on the entrypoint GET triggers the lazy
creation POST (`redirectRulesetPayload`), whose response is then parsed
exactly like a fetch response; any other non-200 status throws; the rule
list is defaulted with `rules ?? []`. `fetchResp` is the entrypoint GET
response and `createResp` the response the provider would give to the
creation POST. -/
def getRedirectRules (fetchResp createResp : RulesetResponse) :
    Eff RedirCall (String × List CurrentRule) :=
  if fetchResp.statusCode == 404 then
    Eff.bind ⟨[redirectRulesetPayload], Except.ok ()⟩ (fun _ =>
      if createResp.statusCode == 200 then
        let body := createResp.result.getD { id := none, rules := none }
        match body.id with
        | some i =>
            if i == "" then Eff.fail "Could not get redirect rules ruleset ID"
            else Eff.pur (i, body.rules.getD [])
        | none => Eff.fail "Could not get redirect rules ruleset ID"
      else Eff.fail "Could not create redirect ruleset")
  else if fetchResp.statusCode == 200 then
    let body := fetchResp.result.getD { id := none, rules := none }
    match body.id with
    | some i =>
        if i == "" then Eff.fail "Could not get redirect rules ruleset ID"
        else Eff.pur (i, body.rules.getD [])
    | none => Eff.fail "Could not get redirect rules ruleset ID"
  else Eff.fail "Could not get redirect rules"

/-- `rewriteRedirectRules` in full: fetch (with possible lazy creation),
the `if (!rulesetId) throw` guard, then the per-item loop. -/
def rewriteRedirectRules (fails : RedirCall → Bool)
    (fetchResp createResp : RulesetResponse) (desired : List RedirectRule) :
    Eff RedirCall Unit :=
  Eff.bind (getRedirectRules fetchResp createResp) (fun fetched =>
    if fetched.1 == "" then Eff.fail "Custom redirect ruleset id is not found"
    else rewriteRedirectRulesLoop fails fetched.1 fetched.2 desired)

/-- `rewriteFirewallRules` in full: fetch, the `if (!rulesetId) throw`
guard, then the per-item loop. -/
def rewriteFirewallRules (fails : FWCall → Bool) (resp : RulesetResponse)
    (desired : List FirewallRule) : Eff FWCall Unit :=
  match getFirewallRules resp with
  | Except.error e => Eff.fail e
  | Except.ok fetched =>
      if fetched.1 == "" then Eff.fail "Custom firewall ruleset id is not found"
      else rewriteFirewallRulesLoop fails fetched.1 fetched.2 desired

/-! ## Client construction (`CloudFlare.constructor`, cloudflare.js 9-27)

The constructor selects `this.authorizationHeaders`: the email/api-key
pair when both are defined, else the bearer token, else it throws. -/

/-- The `options` argument of the constructor; an absent (`undefined`)
field is `none`. -/
structure CFOptions where
  email : Option String
  apiKey : Option String
  token : Option String
deriving DecidableEq, Repr

/-- The authorization-header selection of the constructor, as the list of
header name/value pairs assigned to `this.authorizationHeaders`;
`Except.error` models the constructor throwing. -/
def mkAuthorizationHeaders (options : CFOptions) :
    Except String (List (String × String)) :=
  match options.email, options.apiKey with
  | some email, some apiKey =>
      Except.ok [("X-Auth-Email", email), ("X-Auth-Key", apiKey)]
  | _, _ =>
      match options.token with
      | some token => Except.ok [("authorization", "Bearer " ++ token)]
      | none =>
          Except.error "You must provide either an email and api key or a token"

/-- A header list embodies the email/key credential form: exactly the two
`X-Auth` headers. -/
def isEmailKeyHeaders (hs : List (String × String)) : Prop :=
  ∃ email apiKey, hs = [("X-Auth-Email", email), ("X-Auth-Key", apiKey)]

/-- A header list embodies the bearer-token credential form: exactly the
one `authorization` header. -/
def isBearerHeaders (hs : List (String × String)) : Prop :=
  ∃ token, hs = [("authorization", "Bearer " ++ token)]

/-! ## Setting dispatcher (`applyCloudflareSettings`, index.js 190-202)

The per-domain loop resolves each top-level key of the instantiated
settings document in the `cloudflareSettingsHandlers` table
(`cloudflareSettingsHandlers[key]`, a JavaScript property lookup that
walks the prototype chain), throws when the lookup yields `undefined`,
executes `settingHandler.call(cloudFlare, value)` otherwise, and catches
and logs any per-key failure before moving to the next key. -/

/-- The own keys of the `cloudflareSettingsHandlers` operation table, in
declaration order. -/
def registeredSettingKeys : List String :=
  ["ssl", "ipV6", "emailObfuscation", "brotli", "dnsRecords", "firewallRules",
   "redirectRules", "polish", "minify", "http2Prioritization", "prefetchURLs",
   "http2", "http3", "0-RTT", "argoSmartRouting", "workers", "pageRules",
   "hotlinkProtection"]

/-- The property names of `Object.prototype`, which the table — a plain
object literal — inherits: a lookup `cloudflareSettingsHandlers[key]` at
one of these names yields the inherited member, not `undefined`. -/
def objectPrototypeKeys : List String :=
  ["constructor", "hasOwnProperty", "isPrototypeOf", "propertyIsEnumerable",
   "toLocaleString", "toString", "valueOf", "__defineGetter__",
   "__defineSetter__", "__lookupGetter__", "__lookupSetter__", "__proto__"]

/-- `cloudflareSettingsHandlers[key] !== undefined`: the property lookup
finds an own key of the table or an inherited `Object.prototype`
member. -/
def handlerFound (key : String) : Bool :=
  registeredSettingKeys.contains key || objectPrototypeKeys.contains key

/-- Observable per-key events of the dispatcher loop. -/
inductive DispatchEvent where
  | invoked (key : String)
  | loggedError (key : String)
deriving DecidableEq, Repr

/-- `try { m } catch (error) { console.error(...) }` with an observable log
line: on a throw the error is logged and the computation continues. -/
def Eff.tryCatchLog {ε : Type} (m : Eff ε Unit) (logEvent : ε) : Eff ε Unit :=
  match m.result with
  | Except.ok _ => ⟨m.trace, Except.ok ()⟩
  | Except.error _ => ⟨m.trace ++ [logEvent], Except.ok ()⟩

/-- The body of the dispatcher's `try` block for one key: a key at which
the lookup yields `undefined` throws `Unsupported Cloudflare setting`;
otherwise `settingHandler.call(cloudFlare, value)` is executed — a real
handler for an own key, the inherited member for an `Object.prototype`
name — and that call's outcome (normal return, or a throw: a failing
provider call, or a `TypeError` such as calling `.call` on the
non-function `__proto__`) is an input of the model, `handlerFails`. -/
def applySettingTry (handlerFails : String → Bool) (key : String) :
    Eff DispatchEvent Unit :=
  if handlerFound key then
    ⟨[DispatchEvent.invoked key],
      if handlerFails key then Except.error "handler threw" else Except.ok ()⟩
  else Eff.fail "Unsupported Cloudflare setting"

/-- The `for (const [key, value] of Object.entries(domainSettings))` loop:
each entry is processed inside `try/catch`, the catch logging a per-key
error line. Setting values are opaque to the dispatcher. -/
def applySettingsLoop (handlerFails : String → Bool) :
    List (String × String) → Eff DispatchEvent Unit
  | [] => Eff.pur ()
  | (key, _value) :: entries =>
      Eff.bind
        (Eff.tryCatchLog (applySettingTry handlerFails key)
          (DispatchEvent.loggedError key))
        (fun _ => applySettingsLoop handlerFails entries)

/-- The key of a handler-invocation event. -/
def invokedKey : DispatchEvent → Option String
  | DispatchEvent.invoked key => some key
  | DispatchEvent.loggedError _ => none

/-! ## Rule payload normalization (`createFirewallRule` cloudflare.js
225-253, `updateFirewallRule` 255-283, `createRedirectRule` 374-398,
`updateRedirectRule` 400-424)

The firewall-rule functions compute
`const filter = firewallRule?.filter ?? {}`,
`const rule = { ...firewallRule, ...filter }`, `delete rule.filter`
before `JSON.stringify(rule)`; the redirect-rule functions stringify the
payload unchanged. Payloads are modelled as JavaScript objects: ordered
field lists with JSON-like values. -/

/-- A JavaScript value as it occurs in rule payloads. -/
inductive JsVal where
  | str (s : String)
  | bool (b : Bool)
  | num (n : Int)
  | null
  | obj (fields : List (String × JsVal))
  | arr (elems : List JsVal)

/-- A JavaScript object: its enumerable own fields in insertion order. -/
abbrev JsObj := List (String × JsVal)

/-- Property access `o[k]`: the value of the first binding of `k`. -/
def jsGet (o : JsObj) (k : String) : Option JsVal :=
  (o.find? (fun field => field.1 == k)).map Prod.snd

/-- Object spread `{ ...a, ...b }`: the keys of `a` in order, each taking
`b`'s value when `b` also binds the key, followed by the keys of `b` not
bound in `a`, in `b`'s order. -/
def jsSpread (a b : JsObj) : JsObj :=
  a.map (fun field =>
    match jsGet b field.1 with
    | some v => (field.1, v)
    | none => field) ++
  b.filter (fun field => (jsGet a field.1).isNone)

/-- `delete o[k]`. -/
def jsDelete (o : JsObj) (k : String) : JsObj :=
  o.filter (fun field => !(field.1 == k))

/-- The `filter` sub-object of a rule payload,
`firewallRule?.filter ?? {}`: absent, `null` or non-object values give the
empty object (only object-valued filters occur in rule payloads). -/
def filterFields (rule : JsObj) : JsObj :=
  match jsGet rule "filter" with
  | some (JsVal.obj fields) => fields
  | _ => []

/-- The request body sent by `createFirewallRule`: the `filter` sub-object
spread over the rule, then the `filter` key deleted. -/
def createFirewallRuleBody (firewallRule : JsObj) : JsObj :=
  jsDelete (jsSpread firewallRule (filterFields firewallRule)) "filter"

/-- The request body sent by `updateFirewallRule`: same normalization as
`createFirewallRule` (the source repeats the three lines). -/
def updateFirewallRuleBody (firewallRule : JsObj) : JsObj :=
  jsDelete (jsSpread firewallRule (filterFields firewallRule)) "filter"

/-- The request body sent by `createRedirectRule`:
`JSON.stringify(redirectRule)` of the payload as given, with no
normalization. -/
def createRedirectRuleBody (redirectRule : JsObj) : JsObj :=
  redirectRule

/-- The request body sent by `updateRedirectRule`: the payload as given,
with no normalization. -/
def updateRedirectRuleBody (redirectRule : JsObj) : JsObj :=
  redirectRule

/-- The matching direction described by the specification, for comparison
with the source's `pageRuleMatches`: every DESIRED target must be present
among the CURRENT rule's targets. -/
def pageRuleMatchesSpec (pageRule : PageRule) (currentPageRule : CurrentPageRule) : Bool :=
  pageRule.targets.all
    (fun desiredTarget =>
      (currentPageRule.targets.find? (fun currentTarget =>
        targetTripleEq currentTarget desiredTarget)).isSome)

/-- A concrete page-rule target (`url matches .../a`). -/
def ceTargetA : PRTarget :=
  { target := "url", constraint := some { operator := "matches", value := "a" } }

/-- A concrete page-rule target (`url matches .../b`). -/
def ceTargetB : PRTarget :=
  { target := "url", constraint := some { operator := "matches", value := "b" } }

/-- A desired page rule with two targets. -/
def cePageRule : PageRule :=
  { targets := [ceTargetA, ceTargetB], rest := "actions" }

/-- A current remote page rule carrying only the first of the two desired
targets. -/
def ceCurrentPageRule : CurrentPageRule :=
  { id := "pr1", targets := [ceTargetA] }

/-- A concrete redirect-rule payload authored in the legacy nested shape. -/
def ceRedirectPayload : JsObj :=
  [("description", JsVal.str "redir"), ("action", JsVal.str "redirect"),
   ("filter", JsVal.obj [("enabled", JsVal.bool true), ("expression", JsVal.str "x")])]

/-- A concrete firewall-rule payload defining `enabled` both at top level
and inside `filter`. -/
def ceFirewallPayload : JsObj :=
  [("description", JsVal.str "block bots"), ("action", JsVal.str "block"),
   ("enabled", JsVal.bool false),
   ("filter", JsVal.obj [("enabled", JsVal.bool true), ("expression", JsVal.str "e")])]

/-! ## Template instantiation (`substituteDomainName`, index.js 158-160)

`JSON.parse(JSON.stringify(settings).replaceAllLit('$DOMAIN', domainName))`.
The settings template is a JSON document; the substitution is textual:
serialize, replace every occurrence of the placeholder, parse back. The
serialized text is modelled as a list of characters. `JSON.stringify` and
`JSON.parse` are platform builtins, embedded below for the fragment of
JSON the templates inhabit (strings, integers, booleans, null, arrays,
objects; no floating-point fractions or exponents, which the serializer
never emits). -/

mutual
/-- A JSON document value (a settings template held in memory). Strings
are lists of characters; the numeric values are integers, the only
numbers occurring in settings templates. -/
inductive TVal where
  | str (s : List Char)
  | num (n : Int)
  | bool (b : Bool)
  | null
  | arr (items : TItems)
  | obj (members : TMembers)

/-- The items of a JSON array, in order. -/
inductive TItems where
  | nil
  | cons (hd : TVal) (tl : TItems)

/-- The members of a JSON object, in insertion order. -/
inductive TMembers where
  | nil
  | cons (key : List Char) (value : TVal) (tl : TMembers)
end

/-- Literal global substring replacement: scan left to right, replace
non-overlapping occurrences of the pattern by the replacement text
verbatim, never rescanning the inserted text. This is the "plain global
substring replacement" the specification describes; `replaceAll` below is
the JavaScript method itself, which additionally interprets dollar escapes
in the replacement. The two agree whenever the replacement contains no
dollar sign. -/
def replaceAllLit (pat rep : List Char) : List Char → List Char
  | [] => []
  | c :: cs =>
      if pat.isPrefixOf (c :: cs) then
        rep ++ replaceAllLit pat rep (List.drop (pat.length - 1) cs)
      else
        c :: replaceAllLit pat rep cs
termination_by s => s.length
decreasing_by
  · simp only [List.length_drop, List.length_cons]
    omega
  · simp only [List.length_cons]
    omega

/-- The lowercase hexadecimal digit of a value below 16. -/
def hexDigit (n : Nat) : Char :=
  if n < 10 then Char.ofNat (48 + n) else Char.ofNat (87 + n)

/-- `JSON.stringify` escaping of one string character: quote and backslash
are backslash-escaped, the named control characters use their short
forms, any other control character becomes `\u00` plus two lowercase hex
digits, and every remaining character stands for itself. -/
def escapeChar (c : Char) : List Char :=
  if c = '"' then ['\\', '"']
  else if c = '\\' then ['\\', '\\']
  else if c = '\x08' then ['\\', 'b']
  else if c = '\x09' then ['\\', 't']
  else if c = '\x0a' then ['\\', 'n']
  else if c = '\x0c' then ['\\', 'f']
  else if c = '\x0d' then ['\\', 'r']
  else if c.toNat < 32 then
    ['\\', 'u', '0', '0', hexDigit (c.toNat / 16), hexDigit (c.toNat % 16)]
  else [c]

/-- `JSON.stringify` escaping of a string's characters. -/
def escapeString : List Char → List Char
  | [] => []
  | c :: cs => escapeChar c ++ escapeString cs

/-- The decimal digits of a natural number, most significant first. -/
def serializeNat (n : Nat) : List Char :=
  if n < 10 then [Char.ofNat (48 + n)]
  else serializeNat (n / 10) ++ [Char.ofNat (48 + n % 10)]
termination_by n
decreasing_by exact Nat.div_lt_self (by omega) (by omega)

/-- The JSON text of an integer. -/
def serializeInt (n : Int) : List Char :=
  if n < 0 then '-' :: serializeNat (-n).toNat else serializeNat n.toNat

mutual
/-- `JSON.stringify` (no spacing): the serialized text of a value. -/
def serializeTVal : TVal → List Char
  | TVal.str s => '"' :: (escapeString s ++ ['"'])
  | TVal.num n => serializeInt n
  | TVal.bool true => ['t', 'r', 'u', 'e']
  | TVal.bool false => ['f', 'a', 'l', 's', 'e']
  | TVal.null => ['n', 'u', 'l', 'l']
  | TVal.arr TItems.nil => ['[', ']']
  | TVal.arr (TItems.cons v tl) =>
      '[' :: (serializeTVal v ++ serializeItems tl ++ [']'])
  | TVal.obj TMembers.nil => ['\x7b', '\x7d']
  | TVal.obj (TMembers.cons k v tl) =>
      '\x7b' :: ('"' :: (escapeString k ++ '"' :: ':'
        :: (serializeTVal v ++ serializeMembers tl ++ ['\x7d'])))

/-- The serialized text of an array's items after the first: a comma then
the item, repeated. -/
def serializeItems : TItems → List Char
  | TItems.nil => []
  | TItems.cons v tl => ',' :: (serializeTVal v ++ serializeItems tl)

/-- The serialized text of an object's members after the first: a comma,
the quoted key, a colon, the value, repeated. -/
def serializeMembers : TMembers → List Char
  | TMembers.nil => []
  | TMembers.cons k v tl =>
      ',' :: ('"' :: (escapeString k ++ '"' :: ':'
        :: (serializeTVal v ++ serializeMembers tl)))
end

mutual
/-- The structural reading of the claim, for comparison with the textual
substitution: apply `replaceAllLit pat rep` to every string leaf and every
object key, leave everything else unchanged. -/
def replaceTVal (pat rep : List Char) : TVal → TVal
  | TVal.str s => TVal.str (replaceAllLit pat rep s)
  | TVal.num n => TVal.num n
  | TVal.bool b => TVal.bool b
  | TVal.null => TVal.null
  | TVal.arr items => TVal.arr (replaceItems pat rep items)
  | TVal.obj members => TVal.obj (replaceMembers pat rep members)

/-- `replaceTVal` over an array's items. -/
def replaceItems (pat rep : List Char) : TItems → TItems
  | TItems.nil => TItems.nil
  | TItems.cons v tl =>
      TItems.cons (replaceTVal pat rep v) (replaceItems pat rep tl)

/-- `replaceTVal` over an object's members: keys are part of the
serialized text, so the substitution reaches them too. -/
def replaceMembers (pat rep : List Char) : TMembers → TMembers
  | TMembers.nil => TMembers.nil
  | TMembers.cons k v tl =>
      TMembers.cons (replaceAllLit pat rep k) (replaceTVal pat rep v)
        (replaceMembers pat rep tl)
end

/-- The value of a hexadecimal digit character. -/
def hexVal (c : Char) : Option Nat :=
  if 48 ≤ c.toNat ∧ c.toNat ≤ 57 then some (c.toNat - 48)
  else if 97 ≤ c.toNat ∧ c.toNat ≤ 102 then some (c.toNat - 87)
  else if 65 ≤ c.toNat ∧ c.toNat ≤ 70 then some (c.toNat - 55)
  else none

/-- One step of the JSON string-literal scan: dispatch on the character
after the opening quote's position (`pjs` continues the scan). Escapes are
decoded; a raw control character is rejected, as `JSON.parse` rejects
it. -/
def parseJStringChar (pjs : List Char → Option (List Char × List Char))
    (c : Char) (rest : List Char) : Option (List Char × List Char) :=
  if c = '"' then some ([], rest)
  else if c = '\\' then
    match rest with
    | [] => none
    | e :: rest2 =>
        if e = '"' then
          match pjs rest2 with
          | some (s2, r) => some ('"' :: s2, r)
          | none => none
        else if e = '\\' then
          match pjs rest2 with
          | some (s2, r) => some ('\\' :: s2, r)
          | none => none
        else if e = '/' then
          match pjs rest2 with
          | some (s2, r) => some ('/' :: s2, r)
          | none => none
        else if e = 'b' then
          match pjs rest2 with
          | some (s2, r) => some ('\x08' :: s2, r)
          | none => none
        else if e = 't' then
          match pjs rest2 with
          | some (s2, r) => some ('\x09' :: s2, r)
          | none => none
        else if e = 'n' then
          match pjs rest2 with
          | some (s2, r) => some ('\x0a' :: s2, r)
          | none => none
        else if e = 'f' then
          match pjs rest2 with
          | some (s2, r) => some ('\x0c' :: s2, r)
          | none => none
        else if e = 'r' then
          match pjs rest2 with
          | some (s2, r) => some ('\x0d' :: s2, r)
          | none => none
        else if e = 'u' then
          match rest2 with
          | h1 :: h2 :: h3 :: h4 :: rest3 =>
              match hexVal h1, hexVal h2, hexVal h3, hexVal h4 with
              | some a, some b, some c2, some d =>
                  match pjs rest3 with
                  | some (s2, r) =>
                      some (Char.ofNat
                        (((a * 16 + b) * 16 + c2) * 16 + d) :: s2, r)
                  | none => none
              | _, _, _, _ => none
          | _ => none
        else none
  else if c.toNat < 32 then none
  else
    match pjs rest with
    | some (s2, r) => some (c :: s2, r)
    | none => none

/-- Parse the remainder of a JSON string literal, after its opening
quote: characters up to the unescaped closing quote, decoding the
backslash escapes; a raw control character is rejected, as `JSON.parse`
rejects it. `fuel` bounds the recursion and is in practice at least the
remaining text length. -/
def parseJString (fuel : Nat) (s : List Char) : Option (List Char × List Char) :=
  match fuel with
  | 0 => none
  | fuel + 1 =>
      match s with
      | [] => none
      | c :: rest => parseJStringChar (parseJString fuel) c rest

/-- The longest digit prefix of a text and the remainder. -/
def takeDigits : List Char → List Char × List Char
  | [] => ([], [])
  | c :: cs =>
      if c.isDigit then
        ((c :: (takeDigits cs).1), (takeDigits cs).2)
      else ([], c :: cs)

/-- The value of a digit run, most significant first. -/
def digitsVal (ds : List Char) : Nat :=
  ds.foldl (fun acc c => acc * 10 + (c.toNat - 48)) 0

/-- Parse a nonempty digit run (the integer numbers the serializer
emits). -/
def parseDigits (s : List Char) : Option (Nat × List Char) :=
  match takeDigits s with
  | ([], _) => none
  | (ds, rest) => some (digitsVal ds, rest)

/-- One step of `JSON.parse` value dispatch on the head character:
string, the keyword literals, array, object, or integer number (the only
numbers the serializer emits). The continuations parse nested
structures. -/
def parseTValChar (pjs : List Char → Option (List Char × List Char))
    (pitems : List Char → Option (TItems × List Char))
    (pmembers : List Char → Option (TMembers × List Char))
    (c : Char) (rest : List Char) : Option (TVal × List Char) :=
  if c = '"' then
    match pjs rest with
    | some (str2, rest2) => some (TVal.str str2, rest2)
    | none => none
  else if c = 't' then
    match rest with
    | 'r' :: 'u' :: 'e' :: rest2 => some (TVal.bool true, rest2)
    | _ => none
  else if c = 'f' then
    match rest with
    | 'a' :: 'l' :: 's' :: 'e' :: rest2 => some (TVal.bool false, rest2)
    | _ => none
  else if c = 'n' then
    match rest with
    | 'u' :: 'l' :: 'l' :: rest2 => some (TVal.null, rest2)
    | _ => none
  else if c = '[' then
    match rest with
    | [] => none
    | c2 :: rest2 =>
        if c2 = ']' then some (TVal.arr TItems.nil, rest2)
        else
          match pitems (c2 :: rest2) with
          | some (items, rest3) => some (TVal.arr items, rest3)
          | none => none
  else if c = '\x7b' then
    match rest with
    | [] => none
    | c2 :: rest2 =>
        if c2 = '\x7d' then some (TVal.obj TMembers.nil, rest2)
        else
          match pmembers (c2 :: rest2) with
          | some (members, rest3) => some (TVal.obj members, rest3)
          | none => none
  else if c = '-' then
    match parseDigits rest with
    | some (n, rest2) => some (TVal.num (-(n : Int)), rest2)
    | none => none
  else if c.isDigit then
    match parseDigits (c :: rest) with
    | some (n, rest2) => some (TVal.num (n : Int), rest2)
    | none => none
  else none

/-- One step of the array item-list parse: one item, then a comma and
more items or the closing bracket. -/
def parseItemsStep (ptv : List Char → Option (TVal × List Char))
    (pitems : List Char → Option (TItems × List Char))
    (s : List Char) : Option (TItems × List Char) :=
  match ptv s with
  | some (v, rest) =>
      match rest with
      | [] => none
      | c :: rest2 =>
          if c = ',' then
            match pitems rest2 with
            | some (items, rest3) => some (TItems.cons v items, rest3)
            | none => none
          else if c = ']' then some (TItems.cons v TItems.nil, rest2)
          else none
  | none => none

/-- One step of the object member-list parse: a quoted key, a colon, a
value, then a comma and more members or the closing brace. -/
def parseMembersStep (pjs : List Char → Option (List Char × List Char))
    (ptv : List Char → Option (TVal × List Char))
    (pmembers : List Char → Option (TMembers × List Char))
    (s : List Char) : Option (TMembers × List Char) :=
  match s with
  | [] => none
  | c0 :: rest0 =>
      if c0 = '"' then
        match pjs rest0 with
        | some (k, rest2) =>
            match rest2 with
            | [] => none
            | c1 :: rest3 =>
                if c1 = ':' then
                  match ptv rest3 with
                  | some (v, rest4) =>
                      match rest4 with
                      | [] => none
                      | c2 :: rest5 =>
                          if c2 = ',' then
                            match pmembers rest5 with
                            | some (ms, rest6) => some (TMembers.cons k v ms, rest6)
                            | none => none
                          else if c2 = '\x7d' then
                            some (TMembers.cons k v TMembers.nil, rest5)
                          else none
                  | none => none
                else none
        | none => none
      else none

mutual
/-- `JSON.parse` of one value at the head of the text, returning the
remainder; `fuel` bounds the recursion and is in practice at least the
length of the text. -/
def parseTVal (fuel : Nat) (s : List Char) : Option (TVal × List Char) :=
  match fuel with
  | 0 => none
  | fuel + 1 =>
      match s with
      | [] => none
      | c :: rest =>
          parseTValChar (parseJString fuel) (parseItems fuel)
            (parseMembers fuel) c rest

/-- Parse the nonempty item list of an array, up to and including the
closing bracket. -/
def parseItems (fuel : Nat) (s : List Char) : Option (TItems × List Char) :=
  match fuel with
  | 0 => none
  | fuel + 1 => parseItemsStep (parseTVal fuel) (parseItems fuel) s

/-- Parse the nonempty member list of an object, up to and including the
closing brace. -/
def parseMembers (fuel : Nat) (s : List Char) : Option (TMembers × List Char) :=
  match fuel with
  | 0 => none
  | fuel + 1 =>
      parseMembersStep (parseJString fuel) (parseTVal fuel)
        (parseMembers fuel) s
end

/-- A character that `JSON.stringify` leaves unescaped inside a string
literal: not the quote, not the backslash, not a control character. A
domain name of plain characters survives textual substitution into the
serialized form unchanged. -/
def PlainChar (c : Char) : Prop :=
  c ≠ '"' ∧ c ≠ '\\' ∧ 32 ≤ c.toNat

instance (c : Char) : Decidable (PlainChar c) := by
  unfold PlainChar
  infer_instance

mutual
/-- Sufficient parser fuel for one value of the serialized text. -/
def jfuelV : TVal → Nat
  | TVal.str s => s.length + 2
  | TVal.num _ => 1
  | TVal.bool _ => 1
  | TVal.null => 1
  | TVal.arr TItems.nil => 1
  | TVal.arr (TItems.cons v tl) => 1 + jfuelI v tl
  | TVal.obj TMembers.nil => 1
  | TVal.obj (TMembers.cons k v tl) => 1 + jfuelM k v tl
termination_by v => sizeOf v
decreasing_by all_goals (simp_wf; omega)

/-- Sufficient parser fuel for a nonempty serialized item list. -/
def jfuelI : TVal → TItems → Nat
  | v, TItems.nil => 1 + jfuelV v
  | v, TItems.cons v2 tl2 => 1 + jfuelV v + jfuelI v2 tl2
termination_by v tl => sizeOf v + sizeOf tl
decreasing_by all_goals (simp_wf; try omega)

/-- Sufficient parser fuel for a nonempty serialized member list. -/
def jfuelM : List Char → TVal → TMembers → Nat
  | k, v, TMembers.nil => 1 + (k.length + 1) + jfuelV v
  | k, v, TMembers.cons k2 v2 tl2 =>
      1 + (k.length + 1) + jfuelV v + jfuelM k2 v2 tl2
termination_by _ v tl => sizeOf v + sizeOf tl
decreasing_by all_goals (simp_wf; try omega)
end

theorem Eff.bind_trace {ε α β : Type} (m : Eff ε α) (f : α → Eff ε β)
    (a : α) (h : m.result = Except.ok a) :
    (Eff.bind m f).trace = m.trace ++ (f a).trace := by
  unfold Eff.bind
  rw [h]

theorem rewriteDNSRecords_spec (fails : DNSCall → Bool)
    (current : List CurrentDNSRecord) (desired : List DNSRecord) :
    (rewriteDNSRecords fails current desired).trace = desired.map (dnsCallFor current) ∧
      (rewriteDNSRecords fails current desired).result = Except.ok () := by
  induction desired with
  | nil => exact ⟨rfl, rfl⟩
  | cons d ds ih =>
      refine ⟨?_, ?_⟩
      · show (Eff.bind _ _).trace = _
        rw [Eff.bind_trace _ _ () rfl, ih.1]
        rfl
      · show (Eff.bind _ _).result = _
        unfold Eff.bind
        simp [Eff.tryCatch, ih.2]

theorem rewriteFirewallRulesLoop_spec (fails : FWCall → Bool) (rulesetId : String)
    (currentRules : Option (List CurrentRule)) (desired : List FirewallRule) :
    (rewriteFirewallRulesLoop fails rulesetId currentRules desired).trace
        = desired.map (fwCallFor rulesetId currentRules) ∧
      (rewriteFirewallRulesLoop fails rulesetId currentRules desired).result
        = Except.ok () := by
  induction desired with
  | nil => exact ⟨rfl, rfl⟩
  | cons fr frs ih =>
      refine ⟨?_, ?_⟩
      · show (Eff.bind _ _).trace = _
        rw [Eff.bind_trace _ _ () rfl, ih.1]
        rfl
      · show (Eff.bind _ _).result = _
        unfold Eff.bind
        simp [Eff.tryCatch, ih.2]

theorem rewriteRedirectRulesLoop_spec (fails : RedirCall → Bool) (rulesetId : String)
    (currentRules : List CurrentRule) (desired : List RedirectRule) :
    (rewriteRedirectRulesLoop fails rulesetId currentRules desired).trace
        = desired.map (redirCallFor rulesetId currentRules) ∧
      (rewriteRedirectRulesLoop fails rulesetId currentRules desired).result
        = Except.ok () := by
  induction desired with
  | nil => exact ⟨rfl, rfl⟩
  | cons rr rrs ih =>
      refine ⟨?_, ?_⟩
      · show (Eff.bind _ _).trace = _
        rw [Eff.bind_trace _ _ () rfl, ih.1]
        rfl
      · show (Eff.bind _ _).result = _
        unfold Eff.bind
        simp [Eff.tryCatch, ih.2]

theorem rewritePageRules_spec (fails : PageCall → Bool)
    (current : List CurrentPageRule) (desired : List PageRule) :
    (rewritePageRules fails current desired).trace = desired.map (pageCallFor current) ∧
      (rewritePageRules fails current desired).result = Except.ok () := by
  induction desired with
  | nil => exact ⟨rfl, rfl⟩
  | cons p ps ih =>
      refine ⟨?_, ?_⟩
      · show (Eff.bind _ _).trace = _
        rw [Eff.bind_trace _ _ () rfl, ih.1]
        rfl
      · show (Eff.bind _ _).result = _
        unfold Eff.bind
        simp [Eff.tryCatch, ih.2]

theorem flatten_singleton_map {α ε : Type} (f : α → ε) (xs : List α) :
    (xs.map (fun x => [f x])).flatten = xs.map f := by
  induction xs with
  | nil => rfl
  | cons x xs ih => simp [ih]

theorem deleteWorkerRoutes_spec (fails : WorkerCall → Bool) (routeIds : List String) :
    (deleteWorkerRoutes fails routeIds).trace = routeIds.map WorkerCall.deleteRoute ∧
      (deleteWorkerRoutes fails routeIds).result = Except.ok () := by
  unfold deleteWorkerRoutes Eff.bind Eff.allSettled
  refine ⟨?_, rfl⟩
  simp only [Eff.pur, List.append_nil, List.map_map]
  exact flatten_singleton_map _ routeIds

theorem createWorkerRoutes_spec (fails : WorkerCall → Bool) (routes : List WorkerRoute) :
    (createWorkerRoutes fails routes).trace = routes.map WorkerCall.createRoute ∧
      (createWorkerRoutes fails routes).result = Except.ok () := by
  unfold createWorkerRoutes Eff.bind Eff.allSettled
  refine ⟨?_, rfl⟩
  simp only [Eff.pur, List.append_nil, List.map_map]
  exact flatten_singleton_map _ routes

theorem jsGet_append (l1 l2 : JsObj) (k : String) :
    jsGet (l1 ++ l2) k =
      match jsGet l1 k with
      | some v => some v
      | none => jsGet l2 k := by
  unfold jsGet
  rw [List.find?_append]
  cases l1.find? (fun field => field.1 == k) <;> simp [Option.or]

theorem jsGet_cons (f : String × JsVal) (o : JsObj) (k : String) :
    jsGet (f :: o) k = if f.1 = k then some f.2 else jsGet o k := by
  by_cases h : f.1 = k
  · simp [jsGet, List.find?_cons, h]
  · simp [jsGet, List.find?_cons, h]

theorem jsGet_spread_mapped (a b : JsObj) (k : String) :
    jsGet (a.map (fun field =>
        match jsGet b field.1 with
        | some v => (field.1, v)
        | none => field)) k =
      (a.find? (fun field => field.1 == k)).map (fun field =>
        match jsGet b field.1 with
        | some v => v
        | none => field.2) := by
  induction a with
  | nil => rfl
  | cons f a ih =>
      have hg1 : (match jsGet b f.1 with
          | some v => (f.1, v)
          | none => f).1 = f.1 := by
        cases jsGet b f.1 <;> rfl
      have hg2 : (match jsGet b f.1 with
          | some v => (f.1, v)
          | none => f).2 = (match jsGet b f.1 with
          | some v => v
          | none => f.2) := by
        cases jsGet b f.1 <;> rfl
      rw [List.map_cons, jsGet_cons, hg1, hg2, List.find?_cons]
      by_cases h : f.1 = k
      · simp [h]
      · simp only [h, if_false]
        have hb : (f.1 == k) = false := by simpa using h
        rw [hb, ih]

theorem jsGet_filter_keyed (b : JsObj) (q : String → Bool) (k : String) :
    jsGet (b.filter (fun field => q field.1)) k =
      if q k then jsGet b k else none := by
  induction b with
  | nil => cases hq : q k <;> simp [jsGet, hq]
  | cons f b ih =>
      rw [List.filter_cons]
      by_cases h : f.1 = k
      · subst h
        cases hq : q f.1
        · simp [hq, ih]
        · simp [hq, jsGet_cons]
      · cases hq : q f.1
        · simp only [hq, Bool.false_eq_true, if_false, ih]
          rw [jsGet_cons, if_neg h]
        · simp only [hq, if_true]
          rw [jsGet_cons, if_neg h, jsGet_cons, if_neg h, ih]

theorem jsGet_jsSpread (a b : JsObj) (k : String) :
    jsGet (jsSpread a b) k =
      match jsGet b k with
      | some v => some v
      | none => jsGet a k := by
  unfold jsSpread
  rw [jsGet_append, jsGet_spread_mapped,
    jsGet_filter_keyed b (fun key => (jsGet a key).isNone) k]
  cases hfind : a.find? (fun field => field.1 == k) with
  | none =>
      have hga : jsGet a k = none := by simp [jsGet, hfind]
      rw [hga]
      simp only [Option.map_none, Option.isNone_none, if_pos]
      cases jsGet b k <;> rfl
  | some f =>
      obtain ⟨f1, f2⟩ := f
      have hk : f1 = k := by
        have := List.find?_some hfind
        simpa using this
      subst hk
      have hga : jsGet a f1 = some f2 := by simp [jsGet, hfind]
      rw [hga]
      cases hb : jsGet b f1 <;> simp [hb]

theorem jsGet_jsDelete_ne (o : JsObj) (key k : String) (h : k ≠ key) :
    jsGet (jsDelete o key) k = jsGet o k := by
  unfold jsDelete
  rw [jsGet_filter_keyed o (fun key2 => !(key2 == key)) k]
  simp [h]

theorem jsGet_jsDelete_self (o : JsObj) (key : String) :
    jsGet (jsDelete o key) key = none := by
  unfold jsDelete
  rw [jsGet_filter_keyed o (fun key2 => !(key2 == key)) key]
  simp

/-- C1: DNS record reconciliation. The loop issues exactly one call per
desired record, in order (`trace = desired.map (dnsCallFor current)`); a
desired record whose name equals some current record's name yields an
update keyed by that current record's id; a desired record matching no
current name yields a create; and every update call on the trace is keyed
by the id of a current record whose name equals the name of the desired
payload it carries, so no call targets a current record whose name appears
in no desired record. -/
theorem dns_reconciliation_correct (fails : DNSCall → Bool)
    (current : List CurrentDNSRecord) (desired : List DNSRecord) :
    (rewriteDNSRecords fails current desired).trace = desired.map (dnsCallFor current)
    ∧ (∀ d : DNSRecord, (∃ c ∈ current, c.name = d.name) →
        ∃ c ∈ current, c.name = d.name ∧ dnsCallFor current d = DNSCall.update c.id d)
    ∧ (∀ d : DNSRecord, (∀ c ∈ current, c.name ≠ d.name) →
        dnsCallFor current d = DNSCall.create d)
    ∧ (∀ i p, DNSCall.update i p ∈ (rewriteDNSRecords fails current desired).trace →
        p ∈ desired ∧ ∃ c ∈ current, c.id = i ∧ c.name = p.name) := by
  refine ⟨(rewriteDNSRecords_spec fails current desired).1, ?_, ?_, ?_⟩
  · intro d hd
    have hsome : (current.find? (fun record => record.name == d.name)).isSome := by
      rw [List.find?_isSome]
      obtain ⟨c, hc, hname⟩ := hd
      exact ⟨c, hc, by simpa using hname⟩
    obtain ⟨c, hfind⟩ := Option.isSome_iff_exists.mp hsome
    refine ⟨c, List.mem_of_find?_eq_some hfind, ?_, ?_⟩
    · simpa using List.find?_some hfind
    · unfold dnsCallFor
      rw [hfind]
  · intro d hd
    have hnone : current.find? (fun record => record.name == d.name) = none := by
      rw [List.find?_eq_none]
      intro c hc
      simpa using hd c hc
    unfold dnsCallFor
    rw [hnone]
  · intro i p hmem
    rw [(rewriteDNSRecords_spec fails current desired).1] at hmem
    obtain ⟨d, hd, hcall⟩ := List.mem_map.mp hmem
    unfold dnsCallFor at hcall
    cases hfind : current.find? (fun record => record.name == d.name) with
    | none =>
        rw [hfind] at hcall
        exact absurd hcall (by simp)
    | some c =>
        rw [hfind] at hcall
        have hinj := DNSCall.update.inj hcall
        refine ⟨hinj.2 ▸ hd, c, List.mem_of_find?_eq_some hfind, hinj.1, ?_⟩
        have := List.find?_some hfind
        simp only [beq_iff_eq] at this
        rw [this, hinj.2]

/-- C1 witness: on a concrete current collection and desired list the
update is keyed by the matching record's id and the unmatched record is
created. -/
theorem dns_reconciliation_correct_witness :
    (∃ c ∈ [CurrentDNSRecord.mk "id1" "a.com", CurrentDNSRecord.mk "id2" "b.com"],
        c.name = (DNSRecord.mk "a.com" "A").name ∧
          dnsCallFor [CurrentDNSRecord.mk "id1" "a.com", CurrentDNSRecord.mk "id2" "b.com"]
              (DNSRecord.mk "a.com" "A")
            = DNSCall.update c.id (DNSRecord.mk "a.com" "A"))
    ∧ dnsCallFor [CurrentDNSRecord.mk "id1" "a.com", CurrentDNSRecord.mk "id2" "b.com"]
          (DNSRecord.mk "c.com" "C")
        = DNSCall.create (DNSRecord.mk "c.com" "C") := by
  refine ⟨?_, ?_⟩
  · exact (dns_reconciliation_correct (fun _ => false)
      [CurrentDNSRecord.mk "id1" "a.com", CurrentDNSRecord.mk "id2" "b.com"] []).2.1
      (DNSRecord.mk "a.com" "A")
      ⟨CurrentDNSRecord.mk "id1" "a.com", by simp, rfl⟩
  · exact (dns_reconciliation_correct (fun _ => false)
      [CurrentDNSRecord.mk "id1" "a.com", CurrentDNSRecord.mk "id2" "b.com"]
      []).2.2.1 (DNSRecord.mk "c.com" "C") (by decide)

/-- C2: per-item failure isolation. For each of the four sequential
reconciliation loops (DNS records, firewall rules, redirect rules, page
rules) and every per-item outcome assignment — in particular any in which
some item's create or update call throws — the loop still attempts the
chosen call for every desired item exactly once, in the given order, and
returns normally instead of propagating the error. -/
theorem reconciliation_failure_isolation :
    (∀ (fails : DNSCall → Bool) (current : List CurrentDNSRecord)
        (desired : List DNSRecord),
      (rewriteDNSRecords fails current desired).trace
          = desired.map (dnsCallFor current) ∧
        (rewriteDNSRecords fails current desired).result = Except.ok ())
    ∧ (∀ (fails : FWCall → Bool) (rulesetId : String)
        (currentRules : Option (List CurrentRule)) (desired : List FirewallRule),
      (rewriteFirewallRulesLoop fails rulesetId currentRules desired).trace
          = desired.map (fwCallFor rulesetId currentRules) ∧
        (rewriteFirewallRulesLoop fails rulesetId currentRules desired).result
          = Except.ok ())
    ∧ (∀ (fails : RedirCall → Bool) (rulesetId : String)
        (currentRules : List CurrentRule) (desired : List RedirectRule),
      (rewriteRedirectRulesLoop fails rulesetId currentRules desired).trace
          = desired.map (redirCallFor rulesetId currentRules) ∧
        (rewriteRedirectRulesLoop fails rulesetId currentRules desired).result
          = Except.ok ())
    ∧ (∀ (fails : PageCall → Bool) (current : List CurrentPageRule)
        (desired : List PageRule),
      (rewritePageRules fails current desired).trace
          = desired.map (pageCallFor current) ∧
        (rewritePageRules fails current desired).result = Except.ok ()) :=
  ⟨rewriteDNSRecords_spec, rewriteFirewallRulesLoop_spec,
    rewriteRedirectRulesLoop_spec, rewritePageRules_spec⟩

/-- C3 counterexample: the claim's matching direction is wrong. For the
desired rule with targets A and B and a current rule carrying only target
A, the claim says the candidate is rejected (it misses desired target B),
but the code accepts it and issues an update keyed by its id. -/
theorem pageRules_matching_direction_counterexample :
    pageRuleMatches cePageRule ceCurrentPageRule = true
    ∧ pageRuleMatchesSpec cePageRule ceCurrentPageRule = false
    ∧ (rewritePageRules (fun _ => false) [ceCurrentPageRule] [cePageRule]).trace
        = [PageCall.update "pr1" cePageRule] := by
  refine ⟨by decide, by decide, ?_⟩
  rw [(rewritePageRules_spec (fun _ => false) [ceCurrentPageRule] [cePageRule]).1]
  decide

/-- C3 (amended): in `rewritePageRules` a current remote page rule is
accepted as the match for a desired page rule if and only if every target
of the CURRENT rule (compared as the target/operator/value triple) is
present among the DESIRED rule's targets; the first current rule
satisfying this is the one updated, and a desired rule accepted by no
current rule is created. -/
theorem pageRules_matching_direction (fails : PageCall → Bool)
    (current : List CurrentPageRule) (desired : List PageRule) :
    (rewritePageRules fails current desired).trace = desired.map (pageCallFor current)
    ∧ (∀ (d : PageRule) (cur : CurrentPageRule),
        pageRuleMatches d cur = true ↔
          ∀ ct ∈ cur.targets, ∃ dt ∈ d.targets, targetTripleEq ct dt = true)
    ∧ (∀ (d : PageRule) (cur : CurrentPageRule),
        current.find? (pageRuleMatches d) = some cur →
          cur ∈ current ∧ pageRuleMatches d cur = true ∧
            pageCallFor current d = PageCall.update cur.id d)
    ∧ (∀ d : PageRule, current.find? (pageRuleMatches d) = none →
        pageCallFor current d = PageCall.create d) := by
  refine ⟨(rewritePageRules_spec fails current desired).1, ?_, ?_, ?_⟩
  · intro d cur
    unfold pageRuleMatches
    rw [List.all_eq_true]
    constructor
    · intro h ct hct
      have := h ct hct
      rw [List.find?_isSome] at this
      obtain ⟨dt, hdt, htrip⟩ := this
      exact ⟨dt, hdt, htrip⟩
    · intro h ct hct
      rw [List.find?_isSome]
      obtain ⟨dt, hdt, htrip⟩ := h ct hct
      exact ⟨dt, hdt, htrip⟩
  · intro d cur hfind
    refine ⟨List.mem_of_find?_eq_some hfind, List.find?_some hfind, ?_⟩
    unfold pageCallFor
    rw [hfind]
  · intro d hfind
    unfold pageCallFor
    rw [hfind]

/-- C3 (amended) witness: the current rule carrying only target A matches
the two-target desired rule, and the matching predicate coincides with the
current-targets-subset-of-desired-targets characterization at a concrete
instance. -/
theorem pageRules_matching_direction_witness :
    (pageRuleMatches cePageRule ceCurrentPageRule = true ↔
      ∀ ct ∈ ceCurrentPageRule.targets,
        ∃ dt ∈ cePageRule.targets, targetTripleEq ct dt = true)
    ∧ pageCallFor [ceCurrentPageRule] cePageRule
        = PageCall.update ceCurrentPageRule.id cePageRule := by
  refine ⟨(pageRules_matching_direction (fun _ => false) [ceCurrentPageRule] []).2.1
    cePageRule ceCurrentPageRule, ?_⟩
  exact ((pageRules_matching_direction (fun _ => false) [ceCurrentPageRule] []).2.2.1
    cePageRule ceCurrentPageRule (by decide)).2.2

/-- C5: worker-route replace-all. For every current collection of routes
and desired list, `rewriteWorkerRoutes` issues exactly one delete per
existing route id followed by exactly one create per desired route —
no call depends on matching desired against existing routes — and the
function returns normally for every per-call outcome assignment (failed
deletes or creates are logged inside the `Promise.allSettled` batches and
block no sibling). -/
theorem workerRoutes_replace_all (fails : WorkerCall → Bool)
    (current : List CurrentWorkerRoute) (desired : List WorkerRoute) :
    (rewriteWorkerRoutes fails current desired).trace
        = current.map (fun route => WorkerCall.deleteRoute route.id)
          ++ desired.map WorkerCall.createRoute
    ∧ (rewriteWorkerRoutes fails current desired).result = Except.ok ()
    ∧ (rewriteWorkerRoutes fails current desired).trace.length
        = current.length + desired.length := by
  have hmain :
      (rewriteWorkerRoutes fails current desired).trace
          = current.map (fun route => WorkerCall.deleteRoute route.id)
            ++ desired.map WorkerCall.createRoute
        ∧ (rewriteWorkerRoutes fails current desired).result = Except.ok () := by
    cases current with
    | nil =>
        unfold rewriteWorkerRoutes
        simp only [List.map_nil, List.length_nil, gt_iff_lt, Nat.lt_irrefl, if_false]
        unfold Eff.bind Eff.pur
        simp [(createWorkerRoutes_spec fails desired).1,
          (createWorkerRoutes_spec fails desired).2]
    | cons r rs =>
        unfold rewriteWorkerRoutes
        simp only [List.map_cons, List.length_cons, gt_iff_lt, Nat.succ_pos, if_true]
        unfold Eff.bind
        rw [(deleteWorkerRoutes_spec fails _).2]
        simp [(deleteWorkerRoutes_spec fails _).1,
          (createWorkerRoutes_spec fails desired).1,
          (createWorkerRoutes_spec fails desired).2]
  refine ⟨hmain.1, hmain.2, ?_⟩
  rw [hmain.1]
  simp

/-- C4 counterexample: the claim is false for redirect rules. A redirect
payload authored as `description/action/filter:{enabled,expression}` is
sent by `createRedirectRule` (and `updateRedirectRule`) verbatim: the
`filter` key survives and `enabled` does not appear at the top level. -/
theorem redirect_rule_not_normalized_counterexample :
    createRedirectRuleBody ceRedirectPayload = ceRedirectPayload
    ∧ updateRedirectRuleBody ceRedirectPayload = ceRedirectPayload
    ∧ jsGet (createRedirectRuleBody ceRedirectPayload) "filter"
        = some (JsVal.obj [("enabled", JsVal.bool true), ("expression", JsVal.str "x")])
    ∧ jsGet (createRedirectRuleBody ceRedirectPayload) "enabled" = none :=
  ⟨rfl, rfl, rfl, rfl⟩

/-- C4 (amended): firewall-rule payloads — on both `createFirewallRule`
and `updateFirewallRule` — are normalized before sending: every field of
the `filter` sub-object appears at top level (overriding a top-level field
of the same name), every other top-level field is kept, and the `filter`
key is removed. Redirect-rule payloads are sent unchanged, with no
normalization. -/
theorem rule_payload_normalization (rule : JsObj) (k : String)
    (hk : k ≠ "filter") :
    (jsGet (createFirewallRuleBody rule) k =
        match jsGet (filterFields rule) k with
        | some v => some v
        | none => jsGet rule k)
    ∧ (jsGet (updateFirewallRuleBody rule) k =
        match jsGet (filterFields rule) k with
        | some v => some v
        | none => jsGet rule k)
    ∧ jsGet (createFirewallRuleBody rule) "filter" = none
    ∧ jsGet (updateFirewallRuleBody rule) "filter" = none
    ∧ (∀ redirectRule : JsObj, createRedirectRuleBody redirectRule = redirectRule)
    ∧ (∀ redirectRule : JsObj, updateRedirectRuleBody redirectRule = redirectRule) := by
  refine ⟨?_, ?_, ?_, ?_, fun _ => rfl, fun _ => rfl⟩
  · unfold createFirewallRuleBody
    rw [jsGet_jsDelete_ne _ _ _ hk, jsGet_jsSpread]
  · unfold updateFirewallRuleBody
    rw [jsGet_jsDelete_ne _ _ _ hk, jsGet_jsSpread]
  · unfold createFirewallRuleBody
    rw [jsGet_jsDelete_self]
  · unfold updateFirewallRuleBody
    rw [jsGet_jsDelete_self]

/-- C4 (amended) witness: on the template's legacy-shaped payload the
firewall body carries `expression` at top level and no `filter` key, while
the redirect body is the unmodified payload. -/
theorem rule_payload_normalization_witness :
    jsGet (createFirewallRuleBody ceFirewallPayload) "expression"
        = some (JsVal.str "e")
    ∧ jsGet (createFirewallRuleBody ceFirewallPayload) "filter" = none
    ∧ createRedirectRuleBody ceRedirectPayload = ceRedirectPayload := by
  have h := rule_payload_normalization ceFirewallPayload "expression" (by decide)
  refine ⟨?_, h.2.2.1, (rule_payload_normalization ceFirewallPayload "x"
    (by decide)).2.2.2.2.1 ceRedirectPayload⟩
  rw [h.1]
  rfl

/-- C10: filter fields win on collision. For every firewall-rule payload
that binds a field both at top level and inside its `filter` sub-object,
the body sent by `createFirewallRule` and by `updateFirewallRule` carries
the `filter` sub-object's value for that field. -/
theorem filter_fields_win_on_collision (rule : JsObj) (k : String)
    (v w : JsVal) (hk : k ≠ "filter")
    (_htop : jsGet rule k = some v)
    (hfil : jsGet (filterFields rule) k = some w) :
    jsGet (createFirewallRuleBody rule) k = some w ∧
      jsGet (updateFirewallRuleBody rule) k = some w := by
  constructor
  · unfold createFirewallRuleBody
    rw [jsGet_jsDelete_ne _ _ _ hk, jsGet_jsSpread, hfil]
  · unfold updateFirewallRuleBody
    rw [jsGet_jsDelete_ne _ _ _ hk, jsGet_jsSpread, hfil]

/-- C10 witness: on the concrete payload binding `enabled: false` at top
level and `enabled: true` inside `filter`, the sent bodies carry
`enabled: true`. -/
theorem filter_fields_win_on_collision_witness :
    jsGet (createFirewallRuleBody ceFirewallPayload) "enabled"
        = some (JsVal.bool true) ∧
      jsGet (updateFirewallRuleBody ceFirewallPayload) "enabled"
        = some (JsVal.bool true) :=
  filter_fields_win_on_collision ceFirewallPayload "enabled"
    (JsVal.bool false) (JsVal.bool true) (by decide) rfl rfl

theorem Eff.tryCatchLog_result {ε : Type} (m : Eff ε Unit) (logEvent : ε) :
    (Eff.tryCatchLog m logEvent).result = Except.ok () := by
  unfold Eff.tryCatchLog
  cases m.result <;> rfl

theorem applySettingTry_trace_log (handlerFails : String → Bool) (key : String) :
    (Eff.tryCatchLog (applySettingTry handlerFails key)
        (DispatchEvent.loggedError key)).trace =
      if handlerFound key then
        (if handlerFails key then
          [DispatchEvent.invoked key, DispatchEvent.loggedError key]
        else [DispatchEvent.invoked key])
      else [DispatchEvent.loggedError key] := by
  cases h : handlerFound key <;>
    by_cases hf : handlerFails key <;>
      simp [applySettingTry, Eff.tryCatchLog, Eff.fail, h, hf]

theorem applySettingsLoop_result (handlerFails : String → Bool)
    (doc : List (String × String)) :
    (applySettingsLoop handlerFails doc).result = Except.ok () := by
  induction doc with
  | nil => rfl
  | cons entry rest ih =>
      obtain ⟨key, value⟩ := entry
      show (Eff.bind _ _).result = _
      unfold Eff.bind
      rw [Eff.tryCatchLog_result]
      exact ih

theorem applySettingsLoop_trace_cons (handlerFails : String → Bool)
    (key value : String) (rest : List (String × String)) :
    (applySettingsLoop handlerFails ((key, value) :: rest)).trace =
      (Eff.tryCatchLog (applySettingTry handlerFails key)
        (DispatchEvent.loggedError key)).trace
      ++ (applySettingsLoop handlerFails rest).trace := by
  show (Eff.bind _ _).trace = _
  exact Eff.bind_trace _ _ () (Eff.tryCatchLog_result _ _)

theorem applySettingsLoop_invoked (handlerFails : String → Bool)
    (doc : List (String × String)) :
    (applySettingsLoop handlerFails doc).trace.filterMap invokedKey
      = (doc.map Prod.fst).filter (fun key => handlerFound key) := by
  induction doc with
  | nil => rfl
  | cons entry rest ih =>
      obtain ⟨key, value⟩ := entry
      rw [applySettingsLoop_trace_cons, List.filterMap_append, ih,
        applySettingTry_trace_log]
      cases h : handlerFound key <;>
        by_cases hf : handlerFails key <;>
          simp [h, hf, invokedKey]

theorem applySettingsLoop_logged (handlerFails : String → Bool)
    (doc : List (String × String)) (key value : String)
    (hmem : (key, value) ∈ doc)
    (hunreg : handlerFound key = false) :
    DispatchEvent.loggedError key ∈ (applySettingsLoop handlerFails doc).trace := by
  induction doc with
  | nil => cases hmem
  | cons entry rest ih =>
      obtain ⟨key2, value2⟩ := entry
      rw [applySettingsLoop_trace_cons, List.mem_append]
      rcases List.mem_cons.mp hmem with heq | htail
      · left
        obtain ⟨h1, h2⟩ := Prod.mk.inj heq
        subst h1
        rw [applySettingTry_trace_log, if_neg (by simpa using hunreg)]
        exact List.mem_singleton.mpr rfl
      · right
        exact ih htail

theorem applySettingsLoop_unregistered_never_invoked (handlerFails : String → Bool)
    (doc : List (String × String)) (key : String)
    (hunreg : handlerFound key = false) :
    (applySettingsLoop handlerFails doc).trace.count
      (DispatchEvent.invoked key) = 0 := by
  induction doc with
  | nil => rfl
  | cons entry rest ih =>
      obtain ⟨key2, value2⟩ := entry
      rw [applySettingsLoop_trace_cons, List.count_append, ih, Nat.add_zero,
        applySettingTry_trace_log]
      cases h : handlerFound key2
      · simp [h, List.count_cons]
      · have hne : key2 ≠ key := by
          intro hcontra
          rw [hcontra, hunreg] at h
          cases h
        by_cases hf : handlerFails key2 <;> simp [h, hf, List.count_cons, hne]

/-- C8 counterexample: the key `toString` has no registered handler, yet
the dispatcher neither raises nor logs the per-key unsupported-setting
error for it: the property lookup finds the inherited
`Object.prototype.toString`, which is not `undefined`, so the inherited
member is called instead. -/
theorem dispatcher_key_isolation_counterexample :
    registeredSettingKeys.contains "toString" = false
    ∧ (applySettingsLoop (fun _ => false) [("toString", "x")]).trace
        = [DispatchEvent.invoked "toString"]
    ∧ DispatchEvent.loggedError "toString"
        ∉ (applySettingsLoop (fun _ => false) [("toString", "x")]).trace := by
  refine ⟨by decide, ?_, ?_⟩ <;> decide

/-- C8 (amended): dispatcher per-key failure isolation. For every per-key
call outcome assignment and every instantiated settings document, the
per-key loop of `applyCloudflareSettings` returns normally (no per-setting
failure propagates); `settingHandler.call` is executed exactly at the keys
the property lookup resolves — the table's own keys and the inherited
`Object.prototype` names — once each and in document order; every key of
the document at which the lookup yields `undefined` has its per-key
`Unsupported Cloudflare setting` error logged and is never invoked (the
raised per-key error is not retried). A key naming an `Object.prototype`
member, although it has no registered handler, takes the invocation path,
not the unsupported-key path. -/
theorem dispatcher_key_isolation (handlerFails : String → Bool)
    (doc : List (String × String)) :
    (applySettingsLoop handlerFails doc).result = Except.ok ()
    ∧ (applySettingsLoop handlerFails doc).trace.filterMap invokedKey
        = (doc.map Prod.fst).filter (fun key => handlerFound key)
    ∧ (∀ key value, (key, value) ∈ doc →
        handlerFound key = false →
          DispatchEvent.loggedError key ∈ (applySettingsLoop handlerFails doc).trace)
    ∧ (∀ key, handlerFound key = false →
        (applySettingsLoop handlerFails doc).trace.count
          (DispatchEvent.invoked key) = 0) :=
  ⟨applySettingsLoop_result handlerFails doc,
    applySettingsLoop_invoked handlerFails doc,
    fun key value hmem hunreg =>
      applySettingsLoop_logged handlerFails doc key value hmem hunreg,
    fun key hunreg =>
      applySettingsLoop_unregistered_never_invoked handlerFails doc key hunreg⟩

/-- C8 (amended) witness: a three-key document whose middle key is found
neither in the table nor on `Object.prototype` and whose first handler
throws: the loop returns normally, both registered handlers run, and the
unfindable key is logged, never invoked. -/
theorem dispatcher_key_isolation_witness :
    (applySettingsLoop (fun key => key == "ssl")
        [("ssl", "full"), ("bogus", "x"), ("http2", "on")]).result = Except.ok ()
    ∧ (applySettingsLoop (fun key => key == "ssl")
        [("ssl", "full"), ("bogus", "x"), ("http2", "on")]).trace.filterMap invokedKey
        = ["ssl", "http2"]
    ∧ DispatchEvent.loggedError "bogus" ∈ (applySettingsLoop (fun key => key == "ssl")
        [("ssl", "full"), ("bogus", "x"), ("http2", "on")]).trace
    ∧ (applySettingsLoop (fun key => key == "ssl")
        [("ssl", "full"), ("bogus", "x"), ("http2", "on")]).trace.count
          (DispatchEvent.invoked "bogus") = 0 := by
  have h := dispatcher_key_isolation (fun key => key == "ssl")
    [("ssl", "full"), ("bogus", "x"), ("http2", "on")]
  refine ⟨h.1, ?_, h.2.2.1 "bogus" "x" (by simp) (by decide),
    h.2.2.2 "bogus" (by decide)⟩
  rw [h.2.1]
  decide

/-- C7: redirect-ruleset lazy initialization. When the entrypoint fetch
returns 404, `getRedirectRules` issues the creation POST for an empty
`http_request_dynamic_redirect` ruleset and — provided the provider
answers it with status 200 and a truthy ruleset id and the fresh ruleset's
rule list is empty or absent — returns that new id with an empty current
rule list, so `rewriteRedirectRules` proceeds normally and creates every
desired rule against the empty current list. Only the redirect kind
behaves this way: `getFirewallRules` turns a 404 into a thrown error. -/
theorem redirect_ruleset_lazy_init (fails : RedirCall → Bool)
    (fetchResp createResp : RulesetResponse) (desired : List RedirectRule)
    (body : RulesetBody) (rid : String)
    (h404 : fetchResp.statusCode = 404)
    (hcreateOk : createResp.statusCode = 200)
    (hbody : createResp.result = some body)
    (hid : body.id = some rid) (hrid : rid ≠ "")
    (hrules : body.rules.getD [] = []) :
    getRedirectRules fetchResp createResp
        = ⟨[redirectRulesetPayload], Except.ok (rid, [])⟩
    ∧ redirectRulesetPayload
        = RedirCall.createRuleset "Redirect rules ruleset" "zone"
            "http_request_dynamic_redirect" []
    ∧ (rewriteRedirectRules fails fetchResp createResp desired).trace
        = redirectRulesetPayload
            :: desired.map (fun rr => RedirCall.create rid rr)
    ∧ (rewriteRedirectRules fails fetchResp createResp desired).result
        = Except.ok ()
    ∧ (∀ resp : RulesetResponse, resp.statusCode = 404 →
        ∃ msg, getFirewallRules resp = Except.error msg) := by
  have hne : (rid == "") = false := by simpa using hrid
  have hget : getRedirectRules fetchResp createResp
      = ⟨[redirectRulesetPayload], Except.ok (rid, [])⟩ := by
    unfold getRedirectRules
    rw [h404, hcreateOk, hbody]
    simp only [Option.getD_some]
    rw [hid]
    simp [Eff.bind, Eff.pur, hne, hrules]
  have hcalls : (fun rr => redirCallFor rid [] rr)
      = fun rr => RedirCall.create rid rr := rfl
  have hloop := rewriteRedirectRulesLoop_spec fails rid [] desired
  have hrw : rewriteRedirectRules fails fetchResp createResp desired
      = ⟨redirectRulesetPayload
          :: desired.map (fun rr => RedirCall.create rid rr), Except.ok ()⟩ := by
    unfold rewriteRedirectRules
    rw [hget]
    unfold Eff.bind
    simp only [hne, Bool.false_eq_true, if_false]
    rw [hloop.1, hloop.2]
    rfl
  refine ⟨hget, rfl, ?_, ?_, ?_⟩
  · rw [hrw]
  · rw [hrw]
  · intro resp h404f
    refine ⟨"Could not get firewall rules", ?_⟩
    unfold getFirewallRules
    rw [h404f]
    rfl

/-- C7 witness: with a 404 fetch and a successful creation of ruleset
`rs1`, the trace is the creation POST followed by one create per desired
rule, and a 404 firewall fetch is an error. -/
theorem redirect_ruleset_lazy_init_witness :
    getRedirectRules { statusCode := 404, result := none }
        { statusCode := 200, result := some { id := some "rs1", rules := some [] } }
      = ⟨[redirectRulesetPayload], Except.ok ("rs1", [])⟩
    ∧ (rewriteRedirectRules (fun _ => false) { statusCode := 404, result := none }
        { statusCode := 200, result := some { id := some "rs1", rules := some [] } }
        [RedirectRule.mk "r1" "rest"]).trace
      = [redirectRulesetPayload, RedirCall.create "rs1" (RedirectRule.mk "r1" "rest")]
    ∧ (∃ msg, getFirewallRules { statusCode := 404, result := none }
        = Except.error msg) := by
  have h := redirect_ruleset_lazy_init (fun _ => false)
      { statusCode := 404, result := none }
      { statusCode := 200, result := some { id := some "rs1", rules := some [] } }
      [RedirectRule.mk "r1" "rest"]
      { id := some "rs1", rules := some [] } "rs1"
      rfl rfl rfl rfl (by decide) rfl
  exact ⟨h.1, by rw [h.2.2.1]; rfl, h.2.2.2.2 _ rfl⟩

/-- C9: zone-client credential invariant. Construction throws exactly when
the email/api-key pair is incomplete and no token is given; and every
successfully constructed header set embodies exactly one credential form:
either the `X-Auth-Email`/`X-Auth-Key` pair or the bearer `authorization`
header, never both and never neither. -/
theorem credential_invariant (options : CFOptions) :
    ((∃ msg, mkAuthorizationHeaders options = Except.error msg) ↔
      ((options.email = none ∨ options.apiKey = none) ∧ options.token = none))
    ∧ ∀ hs, mkAuthorizationHeaders options = Except.ok hs →
        (isEmailKeyHeaders hs ∧ ¬ isBearerHeaders hs)
        ∨ (isBearerHeaders hs ∧ ¬ isEmailKeyHeaders hs) := by
  obtain ⟨e, a, t⟩ := options
  cases e <;> cases a <;> cases t <;>
    refine ⟨by simp [mkAuthorizationHeaders], ?_⟩ <;>
      intro hs h <;>
        simp only [mkAuthorizationHeaders] at h
  all_goals
    first
    | exact Except.noConfusion h
    | (injection h with h2; subst h2;
        first
        | exact Or.inl ⟨⟨_, _, rfl⟩, by
            rintro ⟨tk, ht⟩
            simp at ht⟩
        | exact Or.inr ⟨⟨_, rfl⟩, by
            rintro ⟨em, ak, ht⟩
            simp at ht⟩)

/-- C9 witness: with email and api key the constructed headers are the
email/key pair and not the bearer form; with only a token the constructed
headers are the bearer form; with neither, construction throws. -/
theorem credential_invariant_witness :
    ((isEmailKeyHeaders [("X-Auth-Email", "e"), ("X-Auth-Key", "k")]
        ∧ ¬ isBearerHeaders [("X-Auth-Email", "e"), ("X-Auth-Key", "k")])
      ∨ (isBearerHeaders [("X-Auth-Email", "e"), ("X-Auth-Key", "k")]
        ∧ ¬ isEmailKeyHeaders [("X-Auth-Email", "e"), ("X-Auth-Key", "k")]))
    ∧ ((isEmailKeyHeaders [("authorization", "Bearer " ++ "tok")]
        ∧ ¬ isBearerHeaders [("authorization", "Bearer " ++ "tok")])
      ∨ (isBearerHeaders [("authorization", "Bearer " ++ "tok")]
        ∧ ¬ isEmailKeyHeaders [("authorization", "Bearer " ++ "tok")]))
    ∧ (∃ msg, mkAuthorizationHeaders
        { email := none, apiKey := none, token := none } = Except.error msg) :=
  ⟨(credential_invariant
      { email := some "e", apiKey := some "k", token := none }).2 _ rfl,
    (credential_invariant
      { email := none, apiKey := none, token := some "tok" }).2 _ rfl,
    (credential_invariant
      { email := none, apiKey := none, token := none }).1.mpr
      ⟨Or.inl rfl, rfl⟩⟩

theorem replaceAllLit_cons_ne (p0 : Char) (pr rep : List Char) (c : Char)
    (ys : List Char) (h : c ≠ p0) :
    replaceAllLit (p0 :: pr) rep (c :: ys) = c :: replaceAllLit (p0 :: pr) rep ys := by
  rw [replaceAllLit]
  rw [if_neg]
  intro hpre
  have : (p0 == c && (p0 :: pr).tail.isPrefixOf ys) = true := by
    simpa [List.isPrefixOf] using hpre
  have h2 := (Bool.and_eq_true _ _).mp this
  exact h (eq_of_beq h2.1).symm

theorem replaceAllLit_passthrough (p0 : Char) (pr rep : List Char)
    (xs ys : List Char) (hxs : p0 ∉ xs) :
    replaceAllLit (p0 :: pr) rep (xs ++ ys) = xs ++ replaceAllLit (p0 :: pr) rep ys := by
  induction xs with
  | nil => rfl
  | cons c cs ih =>
      have hc : c ≠ p0 := fun hcontra => hxs (hcontra ▸ List.mem_cons_self c cs)
      rw [List.cons_append, replaceAllLit_cons_ne p0 pr rep c (cs ++ ys) hc,
        ih (fun hmem => hxs (List.mem_cons_of_mem c hmem))]
      simp

theorem replaceAllLit_match (p0 : Char) (pr rep u : List Char) :
    replaceAllLit (p0 :: pr) rep ((p0 :: pr) ++ u) = rep ++ replaceAllLit (p0 :: pr) rep u := by
  rw [List.cons_append, replaceAllLit, if_pos]
  · congr 1
    congr 1
    simp [List.drop_left]
  · rw [List.isPrefixOf_iff_prefix]
    exact ⟨u, by simp⟩

theorem escapeChar_plain (c : Char) (h : PlainChar c) : escapeChar c = [c] := by
  obtain ⟨h1, h2, h3⟩ := h
  unfold escapeChar
  rw [if_neg h1, if_neg h2,
    if_neg (fun heq => by subst heq; exact absurd h3 (by decide)),
    if_neg (fun heq => by subst heq; exact absurd h3 (by decide)),
    if_neg (fun heq => by subst heq; exact absurd h3 (by decide)),
    if_neg (fun heq => by subst heq; exact absurd h3 (by decide)),
    if_neg (fun heq => by subst heq; exact absurd h3 (by decide)),
    if_neg (by omega)]

theorem escapeChar_not_plain (c : Char) (h : ¬ PlainChar c) :
    ∃ es, escapeChar c = '\\' :: es := by
  unfold escapeChar
  split_ifs with h1 h2 h3 h4 h5 h6 h7 h8
  · exact ⟨_, rfl⟩
  · exact ⟨_, rfl⟩
  · exact ⟨_, rfl⟩
  · exact ⟨_, rfl⟩
  · exact ⟨_, rfl⟩
  · exact ⟨_, rfl⟩
  · exact ⟨_, rfl⟩
  · exact ⟨_, rfl⟩
  · exact absurd ⟨h1, h2, by omega⟩ h

theorem escapeString_append (xs ys : List Char) :
    escapeString (xs ++ ys) = escapeString xs ++ escapeString ys := by
  induction xs with
  | nil => rfl
  | cons c cs ih => simp [escapeString, ih]

theorem escapeString_plain (s : List Char) (h : ∀ c ∈ s, PlainChar c) :
    escapeString s = s := by
  induction s with
  | nil => rfl
  | cons c cs ih =>
      rw [escapeString, escapeChar_plain c (h c (List.mem_cons_self c cs)),
        ih (fun x hx => h x (List.mem_cons_of_mem c hx))]
      rfl

theorem hexDigit_ne_dollar (n : Nat) (h : n < 16) : hexDigit n ≠ '$' := by
  interval_cases n <;> decide

theorem mem_escapeChar_dollar (c : Char) (h : '$' ∈ escapeChar c) : c = '$' := by
  unfold escapeChar at h
  split_ifs at h with h1 h2 h3 h4 h5 h6 h7 h8
  · simp at h
  · simp at h
  · simp at h
  · simp at h
  · simp at h
  · simp at h
  · simp at h
  · have hd1 : hexDigit (c.toNat / 16) ≠ '$' :=
      hexDigit_ne_dollar _ (by omega)
    have hd2 : hexDigit (c.toNat % 16) ≠ '$' :=
      hexDigit_ne_dollar _ (Nat.mod_lt _ (by omega))
    simp only [List.mem_cons, List.not_mem_nil, or_false] at h
    rcases h with h | h | h | h | h | h
    · exact absurd h (by decide)
    · exact absurd h (by decide)
    · exact absurd h (by decide)
    · exact absurd h (by decide)
    · exact absurd h.symm hd1
    · exact absurd h.symm hd2
  · simpa using (List.mem_singleton.mp h).symm

theorem isPrefixOf_cons_cons (p c : Char) (ps cs : List Char) :
    (p :: ps).isPrefixOf (c :: cs) = (p == c && ps.isPrefixOf cs) := rfl

theorem replaceAllLit_cons_clear (pat rep : List Char) (x : Char) (xs : List Char)
    (h : ¬ pat.isPrefixOf (x :: xs) = true) :
    replaceAllLit pat rep (x :: xs) = x :: replaceAllLit pat rep xs := by
  rw [replaceAllLit, if_neg h]

theorem isPrefixOf_escape (s : List Char) :
    ∀ pat : List Char, (∀ c ∈ pat, PlainChar c) →
      ∀ ys0 : List Char,
        pat.isPrefixOf (escapeString s ++ '"' :: ys0) = pat.isPrefixOf s := by
  induction s with
  | nil =>
      intro pat hplain ys0
      cases pat with
      | nil => rfl
      | cons p ps =>
          have hp : p ≠ '"' := (hplain p (List.mem_cons_self _ _)).1
          show (p :: ps).isPrefixOf ('"' :: ys0) = false
          rw [isPrefixOf_cons_cons]
          have hb : (p == '"') = false := by simpa using hp
          rw [hb, Bool.false_and]
  | cons c cs ih =>
      intro pat hplain ys0
      cases pat with
      | nil => simp [List.isPrefixOf]
      | cons p ps =>
          by_cases hcp : PlainChar c
          · have hesc : escapeString (c :: cs) = c :: escapeString cs := by
              simp [escapeString, escapeChar_plain c hcp]
            rw [hesc]
            show (p :: ps).isPrefixOf (c :: (escapeString cs ++ '"' :: ys0))
                = (p :: ps).isPrefixOf (c :: cs)
            rw [isPrefixOf_cons_cons, isPrefixOf_cons_cons,
              ih ps (fun x hx => hplain x (List.mem_cons_of_mem p hx)) ys0]
          · obtain ⟨es, hes⟩ := escapeChar_not_plain c hcp
            have hp : PlainChar p := hplain p (List.mem_cons_self _ _)
            have hpb : (p == '\\') = false := by simpa using hp.2.1
            have hpc : (p == c) = false := by
              have : p ≠ c := fun hcontra => hcp (hcontra ▸ hp)
              simpa using this
            have hesc : escapeString (c :: cs)
                = '\\' :: (es ++ escapeString cs) := by
              simp [escapeString, hes]
            rw [hesc]
            show (p :: ps).isPrefixOf ('\\' :: ((es ++ escapeString cs) ++ '"' :: ys0))
                = (p :: ps).isPrefixOf (c :: cs)
            rw [isPrefixOf_cons_cons, isPrefixOf_cons_cons, hpb, hpc,
              Bool.false_and, Bool.false_and]

theorem replaceAllLit_escapeString_bounded (pr rep : List Char)
    (hpat : ∀ c ∈ '$' :: pr, PlainChar c) (hrep : ∀ c ∈ rep, PlainChar c) :
    ∀ (n : Nat) (s : List Char), s.length ≤ n → ∀ ys0 : List Char,
      replaceAllLit ('$' :: pr) rep (escapeString s ++ '"' :: ys0)
        = escapeString (replaceAllLit ('$' :: pr) rep s)
            ++ '"' :: replaceAllLit ('$' :: pr) rep ys0 := by
  intro n
  induction n with
  | zero =>
      intro s hs ys0
      have hnil : s = [] := List.eq_nil_of_length_eq_zero (Nat.le_zero.mp hs)
      subst hnil
      have h0 : replaceAllLit ('$' :: pr) rep ([] : List Char) = [] := by
        rw [replaceAllLit]
      rw [show escapeString ([] : List Char) = [] from rfl, List.nil_append, h0,
        show escapeString ([] : List Char) = [] from rfl, List.nil_append]
      exact replaceAllLit_cons_ne '$' pr rep '"' ys0 (by decide)
  | succ n ih =>
      intro s hs ys0
      cases s with
      | nil =>
          have h0 : replaceAllLit ('$' :: pr) rep ([] : List Char) = [] := by
            rw [replaceAllLit]
          rw [show escapeString ([] : List Char) = [] from rfl, List.nil_append, h0,
            show escapeString ([] : List Char) = [] from rfl, List.nil_append]
          exact replaceAllLit_cons_ne '$' pr rep '"' ys0 (by decide)
      | cons c cs =>
          have hcs : cs.length ≤ n := by
            simp only [List.length_cons] at hs
            omega
          by_cases hmatch : ('$' :: pr).isPrefixOf (c :: cs) = true
          · obtain ⟨u, hu⟩ := List.isPrefixOf_iff_prefix.mp hmatch
            cases hu
            simp only [List.append_eq] at hcs ⊢
            rw [show ('$' :: (pr ++ u)) = (('$' :: pr) ++ u) by simp]
            rw [escapeString_append, escapeString_plain _ hpat,
              List.append_assoc, replaceAllLit_match '$' pr rep _,
              replaceAllLit_match '$' pr rep u]
            have hlen : u.length ≤ n := by
              simp only [List.length_append] at hcs
              omega
            rw [ih u hlen ys0, escapeString_append, escapeString_plain rep hrep,
              List.append_assoc]
          · by_cases hcp : PlainChar c
            · have hesc : escapeString (c :: cs) = c :: escapeString cs := by
                simp [escapeString, escapeChar_plain c hcp]
              have hnop : ¬ ('$' :: pr).isPrefixOf
                  (c :: (escapeString cs ++ '"' :: ys0)) = true := by
                have hiff := isPrefixOf_escape (c :: cs) ('$' :: pr) hpat ys0
                rw [hesc] at hiff
                simp only [List.cons_append] at hiff
                rw [hiff]
                exact hmatch
              calc replaceAllLit ('$' :: pr) rep (escapeString (c :: cs) ++ '"' :: ys0)
                  = replaceAllLit ('$' :: pr) rep
                      (c :: (escapeString cs ++ '"' :: ys0)) := by
                    rw [hesc]
                    rfl
                _ = c :: replaceAllLit ('$' :: pr) rep (escapeString cs ++ '"' :: ys0) :=
                    replaceAllLit_cons_clear _ _ _ _ hnop
                _ = c :: (escapeString (replaceAllLit ('$' :: pr) rep cs)
                      ++ '"' :: replaceAllLit ('$' :: pr) rep ys0) := by
                    rw [ih cs hcs ys0]
                _ = escapeString (replaceAllLit ('$' :: pr) rep (c :: cs))
                      ++ '"' :: replaceAllLit ('$' :: pr) rep ys0 := by
                    rw [replaceAllLit_cons_clear _ _ _ _ hmatch]
                    simp [escapeString, escapeChar_plain c hcp]
            · obtain ⟨es, hes⟩ := escapeChar_not_plain c hcp
              have hdol : '$' ∉ escapeChar c := by
                intro hmem
                have hceq := mem_escapeChar_dollar c hmem
                subst hceq
                exact hcp (by decide)
              have hc : c ≠ '$' :=
                fun hcontra => hcp (hcontra ▸ (by decide : PlainChar '$'))
              calc replaceAllLit ('$' :: pr) rep (escapeString (c :: cs) ++ '"' :: ys0)
                  = replaceAllLit ('$' :: pr) rep
                      (escapeChar c ++ (escapeString cs ++ '"' :: ys0)) := by
                    rw [escapeString, List.append_assoc]
                _ = escapeChar c
                      ++ replaceAllLit ('$' :: pr) rep (escapeString cs ++ '"' :: ys0) :=
                    replaceAllLit_passthrough '$' pr rep _ _ hdol
                _ = escapeChar c ++ (escapeString (replaceAllLit ('$' :: pr) rep cs)
                      ++ '"' :: replaceAllLit ('$' :: pr) rep ys0) := by
                    rw [ih cs hcs ys0]
                _ = escapeString (replaceAllLit ('$' :: pr) rep (c :: cs))
                      ++ '"' :: replaceAllLit ('$' :: pr) rep ys0 := by
                    rw [replaceAllLit_cons_ne '$' pr rep c cs hc]
                    rw [escapeString, List.append_assoc]

theorem replaceAllLit_escapeString (pr rep : List Char)
    (hpat : ∀ c ∈ '$' :: pr, PlainChar c) (hrep : ∀ c ∈ rep, PlainChar c)
    (s ys0 : List Char) :
    replaceAllLit ('$' :: pr) rep (escapeString s ++ '"' :: ys0)
      = escapeString (replaceAllLit ('$' :: pr) rep s)
          ++ '"' :: replaceAllLit ('$' :: pr) rep ys0 :=
  replaceAllLit_escapeString_bounded pr rep hpat hrep s.length s le_rfl ys0

theorem isDigit_iff (c : Char) : c.isDigit = true ↔ 48 ≤ c.toNat ∧ c.toNat ≤ 57 := by
  have h : ∀ a b : UInt32, (a ≤ b) ↔ a.toNat ≤ b.toNat := by
    intro a b
    rw [UInt32.le_def]
    rfl
  simp [Char.isDigit, Char.le_def, h, Char.toNat, UInt32.size]

theorem toNat_ofNat_digit (m : Nat) (h : m < 10) :
    (Char.ofNat (48 + m)).toNat = 48 + m := by
  interval_cases m <;> decide

theorem serializeNat_digits (n : Nat) :
    ∀ c ∈ serializeNat n, 48 ≤ c.toNat ∧ c.toNat ≤ 57 := by
  induction n using Nat.strong_induction_on with
  | _ n ih =>
      rw [serializeNat]
      by_cases h : n < 10
      · rw [if_pos h]
        intro c hc
        rw [List.mem_singleton] at hc
        subst hc
        rw [toNat_ofNat_digit n h]
        omega
      · rw [if_neg h]
        intro c hc
        rcases List.mem_append.mp hc with hc | hc
        · exact ih (n / 10) (Nat.div_lt_self (by omega) (by omega)) c hc
        · rw [List.mem_singleton] at hc
          subst hc
          rw [toNat_ofNat_digit (n % 10) (Nat.mod_lt _ (by omega))]
          omega

theorem serializeNat_ne_nil (n : Nat) : serializeNat n ≠ [] := by
  rw [serializeNat]
  by_cases h : n < 10
  · rw [if_pos h]
    simp
  · rw [if_neg h]
    simp

theorem dollar_not_mem_serializeNat (n : Nat) : '$' ∉ serializeNat n := by
  intro h
  have := serializeNat_digits n '$' h
  have hd : ('$').toNat = 36 := by decide
  omega

theorem dollar_not_mem_serializeInt (n : Int) : '$' ∉ serializeInt n := by
  unfold serializeInt
  split_ifs
  · intro h
    rcases List.mem_cons.mp h with h | h
    · exact absurd h (by decide)
    · exact dollar_not_mem_serializeNat _ h
  · exact dollar_not_mem_serializeNat _

mutual
theorem serialize_replace_val (pr rep : List Char)
    (hpat : ∀ c ∈ '$' :: pr, PlainChar c) (hrep : ∀ c ∈ rep, PlainChar c)
    (v : TVal) :
    ∀ rest : List Char,
      replaceAllLit ('$' :: pr) rep (serializeTVal v ++ rest)
        = serializeTVal (replaceTVal ('$' :: pr) rep v)
            ++ replaceAllLit ('$' :: pr) rep rest := by
  intro rest
  cases v with
  | str s =>
      show replaceAllLit ('$' :: pr) rep (('"' :: (escapeString s ++ ['"'])) ++ rest)
          = ('"' :: (escapeString (replaceAllLit ('$' :: pr) rep s) ++ ['"']))
              ++ replaceAllLit ('$' :: pr) rep rest
      simp only [List.cons_append, List.append_assoc, List.singleton_append,
            List.nil_append]
      rw [replaceAllLit_cons_ne '$' pr rep '"' _ (by decide),
        replaceAllLit_escapeString pr rep hpat hrep s rest]
  | num n =>
      show replaceAllLit ('$' :: pr) rep (serializeInt n ++ rest)
          = serializeInt n ++ replaceAllLit ('$' :: pr) rep rest
      exact replaceAllLit_passthrough '$' pr rep _ rest (dollar_not_mem_serializeInt n)
  | bool b =>
      cases b with
      | true =>
          show replaceAllLit ('$' :: pr) rep (['t', 'r', 'u', 'e'] ++ rest)
              = ['t', 'r', 'u', 'e'] ++ replaceAllLit ('$' :: pr) rep rest
          exact replaceAllLit_passthrough '$' pr rep _ rest (by decide)
      | false =>
          show replaceAllLit ('$' :: pr) rep (['f', 'a', 'l', 's', 'e'] ++ rest)
              = ['f', 'a', 'l', 's', 'e'] ++ replaceAllLit ('$' :: pr) rep rest
          exact replaceAllLit_passthrough '$' pr rep _ rest (by decide)
  | null =>
      show replaceAllLit ('$' :: pr) rep (['n', 'u', 'l', 'l'] ++ rest)
          = ['n', 'u', 'l', 'l'] ++ replaceAllLit ('$' :: pr) rep rest
      exact replaceAllLit_passthrough '$' pr rep _ rest (by decide)
  | arr items =>
      cases items with
      | nil =>
          show replaceAllLit ('$' :: pr) rep (['[', ']'] ++ rest)
              = ['[', ']'] ++ replaceAllLit ('$' :: pr) rep rest
          exact replaceAllLit_passthrough '$' pr rep _ rest (by decide)
      | cons v tl =>
          show replaceAllLit ('$' :: pr) rep
              (('[' :: (serializeTVal v ++ serializeItems tl ++ [']'])) ++ rest)
            = ('[' :: (serializeTVal (replaceTVal ('$' :: pr) rep v)
                ++ serializeItems (replaceItems ('$' :: pr) rep tl) ++ [']']))
              ++ replaceAllLit ('$' :: pr) rep rest
          simp only [List.cons_append, List.append_assoc, List.singleton_append,
            List.nil_append]
          rw [replaceAllLit_cons_ne '$' pr rep '[' _ (by decide),
            serialize_replace_val pr rep hpat hrep v _,
            serialize_replace_items pr rep hpat hrep tl _,
            replaceAllLit_cons_ne '$' pr rep ']' rest (by decide)]
  | obj members =>
      cases members with
      | nil =>
          show replaceAllLit ('$' :: pr) rep (['\x7b', '\x7d'] ++ rest)
              = ['\x7b', '\x7d'] ++ replaceAllLit ('$' :: pr) rep rest
          exact replaceAllLit_passthrough '$' pr rep _ rest (by decide)
      | cons k v tl =>
          show replaceAllLit ('$' :: pr) rep
              (('\x7b' :: ('"' :: (escapeString k ++ '"' :: ':'
                :: (serializeTVal v ++ serializeMembers tl ++ ['\x7d'])))) ++ rest)
            = ('\x7b' :: ('"' :: (escapeString (replaceAllLit ('$' :: pr) rep k)
                ++ '"' :: ':'
                :: (serializeTVal (replaceTVal ('$' :: pr) rep v)
                  ++ serializeMembers (replaceMembers ('$' :: pr) rep tl)
                  ++ ['\x7d']))))
              ++ replaceAllLit ('$' :: pr) rep rest
          simp only [List.cons_append, List.append_assoc, List.singleton_append,
            List.nil_append]
          rw [replaceAllLit_cons_ne '$' pr rep '\x7b' _ (by decide),
            replaceAllLit_cons_ne '$' pr rep '"' _ (by decide),
            replaceAllLit_escapeString pr rep hpat hrep k _,
            replaceAllLit_cons_ne '$' pr rep ':' _ (by decide),
            serialize_replace_val pr rep hpat hrep v _,
            serialize_replace_members pr rep hpat hrep tl _,
            replaceAllLit_cons_ne '$' pr rep '\x7d' rest (by decide)]

theorem serialize_replace_items (pr rep : List Char)
    (hpat : ∀ c ∈ '$' :: pr, PlainChar c) (hrep : ∀ c ∈ rep, PlainChar c)
    (items : TItems) :
    ∀ rest : List Char,
      replaceAllLit ('$' :: pr) rep (serializeItems items ++ rest)
        = serializeItems (replaceItems ('$' :: pr) rep items)
            ++ replaceAllLit ('$' :: pr) rep rest := by
  intro rest
  cases items with
  | nil =>
      show replaceAllLit ('$' :: pr) rep ([] ++ rest)
          = [] ++ replaceAllLit ('$' :: pr) rep rest
      simp
  | cons v tl =>
      show replaceAllLit ('$' :: pr) rep
          ((',' :: (serializeTVal v ++ serializeItems tl)) ++ rest)
        = (',' :: (serializeTVal (replaceTVal ('$' :: pr) rep v)
            ++ serializeItems (replaceItems ('$' :: pr) rep tl)))
          ++ replaceAllLit ('$' :: pr) rep rest
      simp only [List.cons_append, List.append_assoc]
      rw [replaceAllLit_cons_ne '$' pr rep ',' _ (by decide),
        serialize_replace_val pr rep hpat hrep v _,
        serialize_replace_items pr rep hpat hrep tl rest]

theorem serialize_replace_members (pr rep : List Char)
    (hpat : ∀ c ∈ '$' :: pr, PlainChar c) (hrep : ∀ c ∈ rep, PlainChar c)
    (members : TMembers) :
    ∀ rest : List Char,
      replaceAllLit ('$' :: pr) rep (serializeMembers members ++ rest)
        = serializeMembers (replaceMembers ('$' :: pr) rep members)
            ++ replaceAllLit ('$' :: pr) rep rest := by
  intro rest
  cases members with
  | nil =>
      show replaceAllLit ('$' :: pr) rep ([] ++ rest)
          = [] ++ replaceAllLit ('$' :: pr) rep rest
      simp
  | cons k v tl =>
      show replaceAllLit ('$' :: pr) rep
          ((',' :: ('"' :: (escapeString k ++ '"' :: ':'
            :: (serializeTVal v ++ serializeMembers tl)))) ++ rest)
        = (',' :: ('"' :: (escapeString (replaceAllLit ('$' :: pr) rep k)
            ++ '"' :: ':'
            :: (serializeTVal (replaceTVal ('$' :: pr) rep v)
              ++ serializeMembers (replaceMembers ('$' :: pr) rep tl)))))
          ++ replaceAllLit ('$' :: pr) rep rest
      simp only [List.cons_append, List.append_assoc]
      rw [replaceAllLit_cons_ne '$' pr rep ',' _ (by decide),
        replaceAllLit_cons_ne '$' pr rep '"' _ (by decide),
        replaceAllLit_escapeString pr rep hpat hrep k _,
        replaceAllLit_cons_ne '$' pr rep ':' _ (by decide),
        serialize_replace_val pr rep hpat hrep v _,
        serialize_replace_members pr rep hpat hrep tl rest]
end

theorem hexVal_hexDigit (m : Nat) (h : m < 16) : hexVal (hexDigit m) = some m := by
  interval_cases m <;> decide

theorem parseJString_escape (s : List Char) :
    ∀ fuel : Nat, s.length + 1 ≤ fuel →
      ∀ rest : List Char,
        parseJString fuel (escapeString s ++ '"' :: rest) = some (s, rest) := by
  induction s with
  | nil =>
      intro fuel hfuel rest
      obtain ⟨f, rfl⟩ : ∃ f, fuel = f + 1 := ⟨fuel - 1, by omega⟩
      rw [show escapeString ([] : List Char) = [] from rfl, List.nil_append,
        show parseJString (f + 1) ('"' :: rest) = some ([], rest) from rfl]
  | cons c cs ih =>
      intro fuel hfuel rest
      obtain ⟨f, rfl⟩ : ∃ f, fuel = f + 1 := ⟨fuel - 1, by omega⟩
      have hf : cs.length + 1 ≤ f := by
        simp only [List.length_cons] at hfuel
        omega
      rw [show escapeString (c :: cs) = escapeChar c ++ escapeString cs from rfl]
      unfold escapeChar
      split_ifs with h1 h2 h3 h4 h5 h6 h7 h8
      · subst h1
        simp only [List.cons_append, List.append_assoc, List.nil_append]
        rw [show parseJString (f + 1)
              ('\\' :: '"' :: (escapeString cs ++ '"' :: rest))
            = (match parseJString f (escapeString cs ++ '"' :: rest) with
              | some (s2, r) => some ('"' :: s2, r)
              | none => none) from rfl,
          ih f hf rest]
      · subst h2
        simp only [List.cons_append, List.append_assoc, List.nil_append]
        rw [show parseJString (f + 1)
              ('\\' :: '\\' :: (escapeString cs ++ '"' :: rest))
            = (match parseJString f (escapeString cs ++ '"' :: rest) with
              | some (s2, r) => some ('\\' :: s2, r)
              | none => none) from rfl,
          ih f hf rest]
      · subst h3
        simp only [List.cons_append, List.append_assoc, List.nil_append]
        rw [show parseJString (f + 1)
              ('\\' :: 'b' :: (escapeString cs ++ '"' :: rest))
            = (match parseJString f (escapeString cs ++ '"' :: rest) with
              | some (s2, r) => some ('\x08' :: s2, r)
              | none => none) from rfl,
          ih f hf rest]
      · subst h4
        simp only [List.cons_append, List.append_assoc, List.nil_append]
        rw [show parseJString (f + 1)
              ('\\' :: 't' :: (escapeString cs ++ '"' :: rest))
            = (match parseJString f (escapeString cs ++ '"' :: rest) with
              | some (s2, r) => some ('\x09' :: s2, r)
              | none => none) from rfl,
          ih f hf rest]
      · subst h5
        simp only [List.cons_append, List.append_assoc, List.nil_append]
        rw [show parseJString (f + 1)
              ('\\' :: 'n' :: (escapeString cs ++ '"' :: rest))
            = (match parseJString f (escapeString cs ++ '"' :: rest) with
              | some (s2, r) => some ('\x0a' :: s2, r)
              | none => none) from rfl,
          ih f hf rest]
      · subst h6
        simp only [List.cons_append, List.append_assoc, List.nil_append]
        rw [show parseJString (f + 1)
              ('\\' :: 'f' :: (escapeString cs ++ '"' :: rest))
            = (match parseJString f (escapeString cs ++ '"' :: rest) with
              | some (s2, r) => some ('\x0c' :: s2, r)
              | none => none) from rfl,
          ih f hf rest]
      · subst h7
        simp only [List.cons_append, List.append_assoc, List.nil_append]
        rw [show parseJString (f + 1)
              ('\\' :: 'r' :: (escapeString cs ++ '"' :: rest))
            = (match parseJString f (escapeString cs ++ '"' :: rest) with
              | some (s2, r) => some ('\x0d' :: s2, r)
              | none => none) from rfl,
          ih f hf rest]
      · have e3 : hexVal (hexDigit (c.toNat / 16)) = some (c.toNat / 16) :=
          hexVal_hexDigit _ (by omega)
        have e4 : hexVal (hexDigit (c.toNat % 16)) = some (c.toNat % 16) :=
          hexVal_hexDigit _ (Nat.mod_lt _ (by omega))
        simp only [List.cons_append, List.append_assoc, List.nil_append]
        rw [show parseJString (f + 1)
              ('\\' :: 'u' :: '0' :: '0' :: hexDigit (c.toNat / 16)
                :: hexDigit (c.toNat % 16) :: (escapeString cs ++ '"' :: rest))
            = (match hexVal '0', hexVal '0', hexVal (hexDigit (c.toNat / 16)),
                hexVal (hexDigit (c.toNat % 16)) with
              | some a, some b, some c2, some d =>
                  match parseJString f (escapeString cs ++ '"' :: rest) with
                  | some (s2, r) =>
                      some (Char.ofNat
                        (((a * 16 + b) * 16 + c2) * 16 + d) :: s2, r)
                  | none => none
              | _, _, _, _ => none) from rfl,
          show hexVal '0' = some 0 from by decide, e3, e4, ih f hf rest]
        have harith : ((0 * 16 + 0) * 16 + c.toNat / 16) * 16 + c.toNat % 16
            = c.toNat := by
          have := Nat.div_add_mod' c.toNat 16
          omega
        show some (Char.ofNat
            (((0 * 16 + 0) * 16 + c.toNat / 16) * 16 + c.toNat % 16) :: cs, rest)
          = some (c :: cs, rest)
        rw [harith, Char.ofNat_toNat]
      · simp only [List.cons_append, List.append_assoc, List.nil_append]
        rw [show parseJString (f + 1) (c :: (escapeString cs ++ '"' :: rest))
            = parseJStringChar (parseJString f) c (escapeString cs ++ '"' :: rest)
            from rfl]
        unfold parseJStringChar
        rw [if_neg h1, if_neg h2, if_neg h8, ih f hf rest]

theorem escapeChar_length_pos (c : Char) : 1 ≤ (escapeChar c).length := by
  unfold escapeChar
  split_ifs <;> simp

theorem length_le_escapeString (s : List Char) :
    s.length ≤ (escapeString s).length := by
  induction s with
  | nil => simp [escapeString]
  | cons c cs ih =>
      rw [show escapeString (c :: cs) = escapeChar c ++ escapeString cs from rfl]
      simp only [List.length_append, List.length_cons]
      have := escapeChar_length_pos c
      omega

theorem takeDigits_of_digits (ds : List Char)
    (hds : ∀ c ∈ ds, c.isDigit = true) :
    ∀ rest : List Char, (∀ c2 cs2, rest = c2 :: cs2 → c2.isDigit = false) →
      takeDigits (ds ++ rest) = (ds, rest) := by
  induction ds with
  | nil =>
      intro rest hrest
      cases rest with
      | nil => rfl
      | cons c2 cs2 =>
          simp [takeDigits, hrest c2 cs2 rfl]
  | cons d ds ih =>
      intro rest hrest
      have hd : d.isDigit = true := hds d (List.mem_cons_self _ _)
      have ihr := ih (fun c hc => hds c (List.mem_cons_of_mem d hc)) rest hrest
      simp [takeDigits, hd, ihr]

theorem digitsVal_snoc (xs : List Char) (d : Char) :
    digitsVal (xs ++ [d]) = digitsVal xs * 10 + (d.toNat - 48) := by
  simp [digitsVal, List.foldl_append]

theorem digitsVal_serializeNat (n : Nat) :
    digitsVal (serializeNat n) = n := by
  induction n using Nat.strong_induction_on with
  | _ n ih =>
      rw [serializeNat]
      by_cases h : n < 10
      · rw [if_pos h]
        simp [digitsVal]
        rw [toNat_ofNat_digit n h]
        omega
      · rw [if_neg h, digitsVal_snoc,
          ih (n / 10) (Nat.div_lt_self (by omega) (by omega)),
          toNat_ofNat_digit (n % 10) (Nat.mod_lt _ (by omega))]
        omega

theorem serializeNat_isDigit (n : Nat) :
    ∀ c ∈ serializeNat n, c.isDigit = true := by
  intro c hc
  rw [isDigit_iff]
  exact serializeNat_digits n c hc

theorem parseDigits_serializeNat (n : Nat) (rest : List Char)
    (hrest : ∀ c2 cs2, rest = c2 :: cs2 → c2.isDigit = false) :
    parseDigits (serializeNat n ++ rest) = some (n, rest) := by
  unfold parseDigits
  rw [takeDigits_of_digits (serializeNat n) (serializeNat_isDigit n) rest hrest]
  cases hs : serializeNat n with
  | nil => exact absurd hs (serializeNat_ne_nil n)
  | cons c cs =>
      show some (digitsVal (c :: cs), rest) = some (n, rest)
      rw [← hs, digitsVal_serializeNat]

theorem digit_head_ne (c : Char) (h : 48 ≤ c.toNat ∧ c.toNat ≤ 57) :
    c ≠ '"' ∧ c ≠ 't' ∧ c ≠ 'f' ∧ c ≠ 'n' ∧ c ≠ '['
      ∧ c ≠ '\x7b' ∧ c ≠ '-' := by
  refine ⟨?_, ?_, ?_, ?_, ?_, ?_, ?_⟩ <;>
    (intro heq; subst heq; revert h; decide)

theorem serializeNat_head (n : Nat) :
    ∃ c cs, serializeNat n = c :: cs ∧ 48 ≤ c.toNat ∧ c.toNat ≤ 57 := by
  cases hs : serializeNat n with
  | nil => exact absurd hs (serializeNat_ne_nil n)
  | cons c cs =>
      refine ⟨c, cs, rfl, serializeNat_digits n c ?_⟩
      rw [hs]
      exact List.mem_cons_self _ _

theorem serializeTVal_head (v : TVal) :
    ∃ c cs, serializeTVal v = c :: cs ∧ c ≠ ']' ∧ c ≠ '\x7d' := by
  cases v with
  | str s => exact ⟨'"', _, rfl, by decide, by decide⟩
  | num n =>
      by_cases h : n < 0
      · rw [show serializeTVal (TVal.num n) = serializeInt n from rfl]
        unfold serializeInt
        rw [if_pos h]
        exact ⟨'-', _, rfl, by decide, by decide⟩
      · rw [show serializeTVal (TVal.num n) = serializeInt n from rfl]
        unfold serializeInt
        rw [if_neg h]
        obtain ⟨c, cs, hs, h1, h2⟩ := serializeNat_head n.toNat
        refine ⟨c, cs, hs, ?_, ?_⟩
        · intro heq
          subst heq
          revert h1 h2
          decide
        · intro heq
          subst heq
          revert h1 h2
          decide
  | bool b => cases b with
      | true => exact ⟨'t', _, rfl, by decide, by decide⟩
      | false => exact ⟨'f', _, rfl, by decide, by decide⟩
  | null => exact ⟨'n', _, rfl, by decide, by decide⟩
  | arr items => cases items with
      | nil => exact ⟨'[', _, rfl, by decide, by decide⟩
      | cons v tl => exact ⟨'[', _, rfl, by decide, by decide⟩
  | obj members => cases members with
      | nil => exact ⟨'\x7b', _, rfl, by decide, by decide⟩
      | cons k v tl => exact ⟨'\x7b', _, rfl, by decide, by decide⟩

theorem jfuelV_pos (v : TVal) : 1 ≤ jfuelV v := by
  cases v with
  | str s => simp [jfuelV]
  | num n => simp [jfuelV]
  | bool b => simp [jfuelV]
  | null => simp [jfuelV]
  | arr items => cases items <;> simp [jfuelV]
  | obj members => cases members <;> simp [jfuelV]

theorem tItems_sizeOf_pos (tl : TItems) : 0 < sizeOf tl := by
  cases tl <;> simp_arith

theorem tMembers_sizeOf_pos (tl : TMembers) : 0 < sizeOf tl := by
  cases tl <;> simp_arith

theorem jfuelI_pos (v : TVal) (tl : TItems) : 1 ≤ jfuelI v tl := by
  cases tl <;> (simp only [jfuelI]; omega)

theorem jfuelM_pos (k : List Char) (v : TVal) (tl : TMembers) :
    1 ≤ jfuelM k v tl := by
  cases tl <;> (simp only [jfuelM]; omega)

theorem notDigitHead_items (tl : TItems) (rest : List Char) :
    ∀ c2 cs2, serializeItems tl ++ ']' :: rest = c2 :: cs2 →
      c2.isDigit = false := by
  intro c2 cs2 h
  cases tl with
  | nil =>
      simp only [serializeItems, List.nil_append] at h
      injection h with h1 h2
      subst h1
      decide
  | cons v tl =>
      simp only [serializeItems, List.cons_append] at h
      injection h with h1 h2
      subst h1
      decide

theorem notDigitHead_members (tl : TMembers) (rest : List Char) :
    ∀ c2 cs2, serializeMembers tl ++ '\x7d' :: rest = c2 :: cs2 →
      c2.isDigit = false := by
  intro c2 cs2 h
  cases tl with
  | nil =>
      simp only [serializeMembers, List.nil_append] at h
      injection h with h1 h2
      subst h1
      decide
  | cons k v tl =>
      simp only [serializeMembers, List.cons_append] at h
      injection h with h1 h2
      subst h1
      decide

theorem parseTVal_succ_quote (f : Nat) (Y : List Char) :
    parseTVal (f + 1) ('"' :: Y) =
      (match parseJString f Y with
      | some (str2, rest2) => some (TVal.str str2, rest2)
      | none => none) := rfl

theorem parseTVal_succ_minus (f : Nat) (Y : List Char) :
    parseTVal (f + 1) ('-' :: Y) =
      (match parseDigits Y with
      | some (n, rest2) => some (TVal.num (-(n : Int)), rest2)
      | none => none) := rfl

theorem parseTVal_succ_lbrack_cons (f : Nat) (c2 : Char) (Y : List Char) :
    parseTVal (f + 1) ('[' :: c2 :: Y) =
      (if c2 = ']' then some (TVal.arr TItems.nil, Y)
      else match parseItems f (c2 :: Y) with
      | some (items, rest3) => some (TVal.arr items, rest3)
      | none => none) := rfl

theorem parseTVal_succ_lbrace_quote (f : Nat) (Y : List Char) :
    parseTVal (f + 1) ('\x7b' :: '"' :: Y) =
      (match parseMembers f ('"' :: Y) with
      | some (members, rest3) => some (TVal.obj members, rest3)
      | none => none) := rfl

theorem parseTVal_succ_cons (f : Nat) (c : Char) (Y : List Char) :
    parseTVal (f + 1) (c :: Y) =
      parseTValChar (parseJString f) (parseItems f) (parseMembers f) c Y := rfl

theorem parseItems_succ (f : Nat) (S : List Char) :
    parseItems (f + 1) S = parseItemsStep (parseTVal f) (parseItems f) S := rfl

theorem parseMembers_succ_quote (f : Nat) (Y : List Char) :
    parseMembers (f + 1) ('"' :: Y) =
      (match parseJString f Y with
      | some (k2, rest2) =>
          (match rest2 with
          | [] => none
          | c1 :: rest3 =>
              if c1 = ':' then
                (match parseTVal f rest3 with
                | some (v2, rest4) =>
                    (match rest4 with
                    | [] => none
                    | c2 :: rest5 =>
                        if c2 = ',' then
                          (match parseMembers f rest5 with
                          | some (ms, rest6) =>
                              some (TMembers.cons k2 v2 ms, rest6)
                          | none => none)
                        else if c2 = '\x7d' then
                          some (TMembers.cons k2 v2 TMembers.nil, rest5)
                        else none)
                | none => none)
              else none)
      | none => none) := rfl

theorem parseMembers_reduce (f : Nat) (k BLOCK : List Char)
    (hk : k.length + 1 ≤ f) :
    parseMembers (f + 1) ('"' :: (escapeString k ++ '"' :: ':' :: BLOCK)) =
      (match parseTVal f BLOCK with
      | some (v2, rest4) =>
          (match rest4 with
          | [] => none
          | c2 :: rest5 =>
              if c2 = ',' then
                (match parseMembers f rest5 with
                | some (ms, rest6) => some (TMembers.cons k v2 ms, rest6)
                | none => none)
              else if c2 = '\x7d' then
                some (TMembers.cons k v2 TMembers.nil, rest5)
              else none)
      | none => none) := by
  rw [parseMembers_succ_quote, parseJString_escape k f hk (':' :: BLOCK)]
  rfl

mutual
/-- Parsing the serialized text of a value recovers the value, given
enough fuel and a remainder that does not begin with a digit. -/
theorem parseTVal_serialize (v : TVal) :
    ∀ fuel : Nat, jfuelV v ≤ fuel → ∀ rest : List Char,
      (∀ c2 cs2, rest = c2 :: cs2 → c2.isDigit = false) →
      parseTVal fuel (serializeTVal v ++ rest) = some (v, rest) := by
  intro fuel hfuel rest hrest
  obtain ⟨f, rfl⟩ : ∃ f, fuel = f + 1 :=
    ⟨fuel - 1, by have := jfuelV_pos v; omega⟩
  cases v with
  | str s =>
      simp only [serializeTVal, List.cons_append, List.append_assoc,
        List.singleton_append, List.nil_append]
      rw [parseTVal_succ_quote,
        parseJString_escape s f (by simp only [jfuelV] at hfuel; omega) rest]
  | num n =>
      simp only [serializeTVal]
      unfold serializeInt
      by_cases hn : n < 0
      · rw [if_pos hn, List.cons_append, parseTVal_succ_minus,
          parseDigits_serializeNat (-n).toNat rest hrest]
        show some (TVal.num (-(((-n).toNat : Int))), rest)
          = some (TVal.num n, rest)
        have h2 : (-(((-n).toNat : Int))) = n := by omega
        rw [h2]
      · rw [if_neg hn]
        obtain ⟨c, cs, hs, hlo, hhi⟩ := serializeNat_head n.toNat
        obtain ⟨hne1, hne2, hne3, hne4, hne5, hne6, hne7⟩ :=
          digit_head_ne c ⟨hlo, hhi⟩
        have hdig : c.isDigit = true := by
          rw [isDigit_iff]
          exact ⟨hlo, hhi⟩
        rw [hs, List.cons_append, parseTVal_succ_cons]
        unfold parseTValChar
        rw [if_neg hne1, if_neg hne2, if_neg hne3, if_neg hne4, if_neg hne5,
          if_neg hne6, if_neg hne7, if_pos hdig,
          show c :: (cs ++ rest) = (c :: cs) ++ rest from rfl, ← hs,
          parseDigits_serializeNat n.toNat rest hrest]
        show some (TVal.num ((n.toNat : Int)), rest) = some (TVal.num n, rest)
        have h2 : ((n.toNat : Int)) = n := by omega
        rw [h2]
  | bool b =>
      cases b with
      | true =>
          simp only [serializeTVal, List.cons_append, List.nil_append]
          rfl
      | false =>
          simp only [serializeTVal, List.cons_append, List.nil_append]
          rfl
  | null =>
      simp only [serializeTVal, List.cons_append, List.nil_append]
      rfl
  | arr items =>
      cases items with
      | nil =>
          simp only [serializeTVal, List.cons_append, List.nil_append]
          rfl
      | cons v tl =>
          simp only [serializeTVal, List.cons_append, List.append_assoc,
            List.singleton_append, List.nil_append]
          obtain ⟨c2, cs2, hshape, hne1, hne2⟩ := serializeTVal_head v
          have hin : serializeTVal v ++ (serializeItems tl ++ ']' :: rest)
              = c2 :: (cs2 ++ (serializeItems tl ++ ']' :: rest)) := by
            rw [hshape, List.cons_append]
          rw [hin, parseTVal_succ_lbrack_cons, if_neg hne1,
            show c2 :: (cs2 ++ (serializeItems tl ++ ']' :: rest))
              = (c2 :: cs2) ++ (serializeItems tl ++ ']' :: rest) from rfl,
            ← hshape,
            parseItems_serialize v tl f
              (by simp only [jfuelV] at hfuel; omega) rest]
  | obj members =>
      cases members with
      | nil =>
          simp only [serializeTVal, List.cons_append, List.nil_append]
          rfl
      | cons k v tl =>
          simp only [serializeTVal, List.cons_append, List.append_assoc,
            List.singleton_append, List.nil_append]
          rw [parseTVal_succ_lbrace_quote,
            parseMembers_serialize k v tl f
              (by simp only [jfuelV] at hfuel; omega) rest]
termination_by sizeOf v
decreasing_by
  all_goals simp_wf
  all_goals try subst_vars
  all_goals simp_arith

/-- Parsing the serialized item list of a nonempty array, after the
opening bracket, recovers the items. -/
theorem parseItems_serialize (v : TVal) (tl : TItems) :
    ∀ fuel : Nat, jfuelI v tl ≤ fuel → ∀ rest : List Char,
      parseItems fuel
          (serializeTVal v ++ (serializeItems tl ++ ']' :: rest))
        = some (TItems.cons v tl, rest) := by
  intro fuel hfuel rest
  obtain ⟨f, rfl⟩ : ∃ f, fuel = f + 1 :=
    ⟨fuel - 1, by have := jfuelI_pos v tl; omega⟩
  have hv : jfuelV v ≤ f := by
    cases tl <;> (simp only [jfuelI] at hfuel; omega)
  rw [parseItems_succ]
  unfold parseItemsStep
  rw [parseTVal_serialize v f hv (serializeItems tl ++ ']' :: rest)
    (notDigitHead_items tl rest)]
  cases tl with
  | nil =>
      simp only [serializeItems, List.nil_append]
      rfl
  | cons v2 tl2 =>
      simp only [serializeItems, List.cons_append, List.append_assoc]
      show (match parseItems f
            (serializeTVal v2 ++ (serializeItems tl2 ++ ']' :: rest)) with
        | some (items, rest3) => some (TItems.cons v items, rest3)
        | none => none) = some (TItems.cons v (TItems.cons v2 tl2), rest)
      rw [parseItems_serialize v2 tl2 f
        (by simp only [jfuelI] at hfuel; omega) rest]
termination_by sizeOf v + sizeOf tl
decreasing_by
  all_goals simp_wf
  all_goals try subst_vars
  all_goals try simp_arith
  all_goals try exact tItems_sizeOf_pos tl

/-- Parsing the serialized member list of a nonempty object, after the
opening brace, recovers the members. -/
theorem parseMembers_serialize (k : List Char) (v : TVal) (tl : TMembers) :
    ∀ fuel : Nat, jfuelM k v tl ≤ fuel → ∀ rest : List Char,
      parseMembers fuel ('"' :: (escapeString k ++ '"' :: ':'
          :: (serializeTVal v ++ (serializeMembers tl ++ '\x7d' :: rest))))
        = some (TMembers.cons k v tl, rest) := by
  intro fuel hfuel rest
  obtain ⟨f, rfl⟩ : ∃ f, fuel = f + 1 :=
    ⟨fuel - 1, by have := jfuelM_pos k v tl; omega⟩
  have hk : k.length + 1 ≤ f := by
    cases tl <;> (simp only [jfuelM] at hfuel; omega)
  have hv : jfuelV v ≤ f := by
    cases tl <;> (simp only [jfuelM] at hfuel; omega)
  rw [parseMembers_reduce f k _ hk,
    parseTVal_serialize v f hv (serializeMembers tl ++ '\x7d' :: rest)
      (notDigitHead_members tl rest)]
  cases tl with
  | nil =>
      simp only [serializeMembers, List.nil_append]
      rfl
  | cons k2 v2 tl2 =>
      simp only [serializeMembers, List.cons_append, List.append_assoc]
      show (match parseMembers f ('"' :: (escapeString k2 ++ '"' :: ':'
            :: (serializeTVal v2
              ++ (serializeMembers tl2 ++ '\x7d' :: rest)))) with
        | some (ms, rest6) => some (TMembers.cons k v ms, rest6)
        | none => none)
        = some (TMembers.cons k v (TMembers.cons k2 v2 tl2), rest)
      rw [parseMembers_serialize k2 v2 tl2 f
        (by simp only [jfuelM] at hfuel; omega) rest]
termination_by sizeOf v + sizeOf tl
decreasing_by
  all_goals simp_wf
  all_goals try subst_vars
  all_goals try simp_arith
  all_goals try exact tMembers_sizeOf_pos tl
end

mutual
/-- The fuel a value needs is at most the length of its serialized
text. -/
theorem jfuelV_le (v : TVal) : jfuelV v ≤ (serializeTVal v).length := by
  cases v with
  | str s =>
      have := length_le_escapeString s
      simp only [jfuelV, serializeTVal, List.length_cons, List.length_append,
        List.length_nil]
      omega
  | num n =>
      simp only [jfuelV, serializeTVal]
      unfold serializeInt
      by_cases hn : n < 0
      · rw [if_pos hn]
        simp
      · rw [if_neg hn]
        cases hs : serializeNat n.toNat with
        | nil => exact absurd hs (serializeNat_ne_nil n.toNat)
        | cons c cs => simp
  | bool b => cases b <;> simp [jfuelV, serializeTVal]
  | null => simp [jfuelV, serializeTVal]
  | arr items =>
      cases items with
      | nil => simp [jfuelV, serializeTVal]
      | cons v tl =>
          have := jfuelI_le v tl
          simp only [jfuelV, serializeTVal, List.length_cons,
            List.length_append, List.length_nil]
          omega
  | obj members =>
      cases members with
      | nil => simp [jfuelV, serializeTVal]
      | cons k v tl =>
          have := jfuelM_le k v tl
          simp only [jfuelV, serializeTVal, List.length_cons,
            List.length_append, List.length_nil]
          omega
termination_by sizeOf v
decreasing_by
  all_goals simp_wf
  all_goals try subst_vars
  all_goals simp_arith

/-- The fuel a nonempty item list needs is at most the length of its
serialized text plus one. -/
theorem jfuelI_le (v : TVal) (tl : TItems) :
    jfuelI v tl
      ≤ (serializeTVal v).length + (serializeItems tl).length + 1 := by
  cases tl with
  | nil =>
      have := jfuelV_le v
      simp only [jfuelI, serializeItems, List.length_nil]
      omega
  | cons v2 tl2 =>
      have h1 := jfuelV_le v
      have h2 := jfuelI_le v2 tl2
      simp only [jfuelI, serializeItems, List.length_cons, List.length_append]
      omega
termination_by sizeOf v + sizeOf tl
decreasing_by
  all_goals simp_wf
  all_goals try subst_vars
  all_goals simp_arith

/-- The fuel a nonempty member list needs is at most the length of its
serialized text plus one. -/
theorem jfuelM_le (k : List Char) (v : TVal) (tl : TMembers) :
    jfuelM k v tl ≤ (escapeString k).length + (serializeTVal v).length
      + (serializeMembers tl).length + 4 := by
  cases tl with
  | nil =>
      have h1 := jfuelV_le v
      have h2 := length_le_escapeString k
      simp only [jfuelM, serializeMembers, List.length_nil]
      omega
  | cons k2 v2 tl2 =>
      have h1 := jfuelV_le v
      have h2 := length_le_escapeString k
      have h3 := jfuelM_le k2 v2 tl2
      simp only [jfuelM, serializeMembers, List.length_cons,
        List.length_append]
      omega
termination_by sizeOf v + sizeOf tl
decreasing_by
  all_goals simp_wf
  all_goals try subst_vars
  all_goals simp_arith
end

